import Mathlib

/-!
Verification of the analytics-dashboard fetch scripts.

This file gives a shallow embedding of the normalization / aggregation /
merge logic of the three data-fetching pipelines (GA4 metrics fetcher,
WordPress topic fetcher, Google Sheets fetcher) and proves the testable
properties stated in the specification against it.

The JS scripts are stateless batch jobs; all logic relevant to the claims
is pure data reshaping, embedded here as total Lean functions.  JS `Date`
objects (as used through `getUTCFullYear`/`getUTCMonth`/`getUTCDate` and
`setUTCDate`) are embedded as civil (proleptic Gregorian) calendar dates,
and JS number-to-string interpolation as decimal digit rendering.
-/

namespace Dashboard

/-- One civil (proleptic Gregorian) calendar date, as a JS `Date` exposes it
through `getUTCFullYear` / `getUTCMonth + 1` / `getUTCDate`. -/
structure Civil where
  year : Int
  month : Nat
  day : Nat
deriving DecidableEq, Repr

/-- Gregorian leap-year rule, as implemented by JS `Date`. -/
def isLeap (y : Int) : Bool :=
  (y % 4 == 0 && y % 100 != 0) || y % 400 == 0

/-- Number of days in month `m` of year `y` (Gregorian). -/
def daysInMonth (y : Int) (m : Nat) : Nat :=
  if m = 2 then (if isLeap y then 29 else 28)
  else if m = 4 ∨ m = 6 ∨ m = 9 ∨ m = 11 then 30
  else 31

/-- A structurally valid calendar date. -/
def Civil.Valid (c : Civil) : Prop :=
  1 ≤ c.month ∧ c.month ≤ 12 ∧ 1 ≤ c.day ∧ c.day ≤ daysInMonth c.year c.month

instance (c : Civil) : Decidable c.Valid := by
  unfold Civil.Valid; infer_instance

/-- JS `d.setUTCDate(d.getUTCDate() + 1)`: advance one calendar day,
rolling over month and year ends. -/
def nextDay (c : Civil) : Civil :=
  if c.day < daysInMonth c.year c.month then ⟨c.year, c.month, c.day + 1⟩
  else if c.month < 12 then ⟨c.year, c.month + 1, 1⟩
  else ⟨c.year + 1, 1, 1⟩

/-- JS `d.setUTCDate(d.getUTCDate() - 1)`: step one calendar day back,
rolling under month and year starts. -/
def prevDay (c : Civil) : Civil :=
  if 1 < c.day then ⟨c.year, c.month, c.day - 1⟩
  else if 1 < c.month then ⟨c.year, c.month - 1, daysInMonth c.year (c.month - 1)⟩
  else ⟨c.year - 1, 12, 31⟩

/-- A strictly monotone rank of civil dates along `nextDay`; used only to
show that enumerated day ranges have no duplicates. -/
def rank (c : Civil) : Int := 372 * c.year + 31 * c.month + c.day

/-- Iterated `nextDay`. -/
def iterNext (n : Nat) (c : Civil) : Civil :=
  match n with
  | 0 => c
  | n + 1 => iterNext n (nextDay c)

/-- JS `addDays(d, -n)`: iterated `prevDay`. -/
def subDays (c : Civil) (n : Nat) : Civil :=
  match n with
  | 0 => c
  | n + 1 => subDays (prevDay c) n

/-- The enumeration `[c, nextDay c, ..., nextDay^(n-1) c]` of `n` consecutive
calendar days starting at `c` — the `eachDay` / merge loops of the GA4
scripts iterate over exactly this list. -/
def dayRange (c : Civil) (n : Nat) : List Civil :=
  match n with
  | 0 => []
  | n + 1 => c :: dayRange (nextDay c) n

/-- The character for a single decimal digit (`n < 10`). -/
def digitChar (n : Nat) : Char :=
  if n = 0 then '0' else if n = 1 then '1' else if n = 2 then '2' else if n = 3 then '3'
  else if n = 4 then '4' else if n = 5 then '5' else if n = 6 then '6' else if n = 7 then '7'
  else if n = 8 then '8' else '9'

/-- Fueled digit accumulator; `fuel > n` always suffices. -/
def natDigitsGo (fuel : Nat) (n : Nat) (acc : List Char) : List Char :=
  match fuel with
  | 0 => acc
  | fuel + 1 =>
    if n < 10 then digitChar n :: acc
    else natDigitsGo fuel (n / 10) (digitChar (n % 10) :: acc)

/-- Decimal digits of `n`, most significant first: the characters JS
produces when interpolating a non-negative integer into a string. -/
def natDigits (n : Nat) : List Char := natDigitsGo (n + 1) n []

/-- Numeric value of a digit string, used to invert `natDigits`. -/
def digitsVal (l : List Char) : Nat :=
  l.foldl (fun a c => 10 * a + (c.toNat - 48)) 0

/-- JS `String(y)` for a (possibly negative) integer. -/
def intChars (y : Int) : List Char :=
  if y < 0 then '-' :: natDigits (-y).toNat else natDigits y.toNat

/-- JS `String(n).padStart(2, "0")`. -/
def pad2 (n : Nat) : List Char :=
  List.replicate (2 - (natDigits n).length) '0' ++ natDigits n

/-- Hyphenated date characters, as built by the template literal of `toYMD`. -/
def ymdChars (c : Civil) : List Char :=
  intChars c.year ++ '-' :: (pad2 c.month ++ '-' :: pad2 c.day)

/-- `toYMD(d)` of src/unnamed/part_002 lines 46-51. -/
def toYMD (c : Civil) : String := ⟨ymdChars c⟩

/-- Compact date characters, as built by the template literal of `ymdCompact`. -/
def compactChars (c : Civil) : List Char :=
  intChars c.year ++ (pad2 c.month ++ pad2 c.day)

/-- `ymdCompact(d)` of src/unnamed/part_002 lines 52-57 (also produced by
`end.replaceAll("-", "")` in scripts/fetch_ga4.js line 87). -/
def ymdCompact (c : Civil) : String := ⟨compactChars c⟩

/-- Start of the requested interval: `addDays(todayUTC, -DAYS)`. -/
def rangeStart (today : Civil) (days : Nat) : Civil := subDays today days

/-- End of the requested interval: `addDays(todayUTC, -1)`, i.e. yesterday. -/
def rangeEnd (today : Civil) : Civil := prevDay today

/-- The enumeration of the closed interval `[rangeStart, rangeEnd]`. -/
def resolvedDays (today : Civil) (days : Nat) : List Civil :=
  dayRange (rangeStart today days) days

/-- ASCII whitespace as recognized by JS `trim`. -/
def isJsSpace (c : Char) : Bool :=
  c = ' ' || c = '\t' || c = '\n' || c = '\r' || c = '\x0b' || c = '\x0c'

/-- Drop leading whitespace. -/
def trimLeftL (l : List Char) : List Char := l.dropWhile isJsSpace

/-- Drop trailing whitespace. -/
def trimRightL (l : List Char) : List Char := (l.reverse.dropWhile isJsSpace).reverse

/-- JS `s.trim()`. -/
def jsTrim (s : String) : String := ⟨trimRightL (trimLeftL s.data)⟩

/-- JS `map.set(k, v)` / `obj[k] = v`. -/
def setKey {β : Type} (m : List (String × β)) (k : String) (v : β) : List (String × β) :=
  match m with
  | [] => [(k, v)]
  | (k', v') :: rest => if k' = k then (k, v) :: rest else (k', v') :: setKey rest k v

/-- JS `map.get(k)` / `obj[k]`, `undefined` when absent. -/
def lookupKey {β : Type} (m : List (String × β)) (k : String) : Option β :=
  match m with
  | [] => none
  | (k', v') :: rest => if k' = k then some v' else lookupKey rest k

/-- The keys of a keyed map, in insertion order. -/
def keysOf {β : Type} (m : List (String × β)) : List String := m.map Prod.fst

/-- JS `s.split(",")` on the character list (single-character separator):
`"a,,b"` becomes `["a", "", "b"]`. -/
def splitComma : List Char → List (List Char)
  | [] => [[]]
  | c :: rest =>
    let r := splitComma rest
    if c = ',' then [] :: r
    else
      match r with
      | [] => [[c]]
      | h :: t => (c :: h) :: t

/-- JS `s.split(",")`. -/
def jsSplitComma (s : String) : List String :=
  (splitComma s.data).map (fun l => ⟨l⟩)

/-- A tags field value (`null`/`undefined` and `""` are both JS-falsy and
are taken by the `if (!tags)` guard; an empty array is truthy). -/
inductive TagsVal where
  | missing
  | arr (elems : List String)
  | str (s : String)
deriving DecidableEq

/-- An element of an authors array: `a?.name ?? a`. -/
inductive AuthElem where
  | named (name : String)
  | plain (s : String)
deriving DecidableEq

/-- The string JS obtains from an authors-array element via
`(a?.name ?? a).toString()`. -/
def AuthElem.str : AuthElem → String
  | .named n => n
  | .plain s => s

/-- An authors field value. -/
inductive AuthVal where
  | missing
  | arr (elems : List AuthElem)
  | str (s : String)
deriving DecidableEq

/-- `normalizeTags` of scripts/fetch_wex.js lines 42-46. -/
def normalizeTags : TagsVal → List String
  | .missing => []
  | .arr es => (es.map jsTrim).filter (fun s => s ≠ "")
  | .str s => if s = "" then [] else (((jsSplitComma s).map jsTrim).filter (fun s => s ≠ ""))

/-- `normalizeAuthors` of scripts/fetch_wex.js lines 47-51 (identical in
src/unnamed/part_001 lines 42-46): the array branch maps elements to
strings without trimming or filtering. -/
def normalizeAuthors : AuthVal → List String
  | .missing => []
  | .arr es => es.map AuthElem.str
  | .str s => if s = "" then [] else (((jsSplitComma s).map jsTrim).filter (fun s => s ≠ ""))

/-- One normalized article (`all` entries of scripts/fetch_wex.js lines
119-129).  `sectionName` embeds the JS field `section`. -/
structure Article where
  title : String
  slug : String
  publishedAt : String
  sectionName : String
  authors : List String
  tags : List String
deriving DecidableEq

/-- Accumulator per tag in the `byTag` map. -/
structure TopicAcc where
  name : String
  count : Nat
  sampleTitles : List String
  sections : List String
deriving DecidableEq

/-- JS `Set.prototype.add`: no-op on an element already present, else
appended (JS sets iterate in insertion order). -/
def addSample (s : List String) (x : String) : List String :=
  if x ∈ s then s else s ++ [x]

/-- Mutation of one `byTag` entry by one (article, tag) visit:
`obj.count += 1`, sample titles capped at three, section recorded
(scripts/fetch_wex.js lines 142-144). -/
def bumpAcc (a : Article) (o : TopicAcc) : TopicAcc :=
  ⟨o.name, o.count + 1,
   if o.sampleTitles.length < 3 ∧ a.title ≠ "" then addSample o.sampleTitles a.title
   else o.sampleTitles,
   if a.sectionName ≠ "" then addSample o.sections a.sectionName else o.sections⟩

/-- The body of the inner loop of scripts/fetch_wex.js lines 138-146 for
one article `a` and one tag `t`: fetch-or-create the entry for the trimmed
tag, bump it, store it back. -/
def tagStep (m : List (String × TopicAcc)) (a : Article) (t : String) :
    List (String × TopicAcc) :=
  let key := jsTrim t
  setKey m key (bumpAcc a ((lookupKey m key).getD ⟨key, 0, [], []⟩))

/-- The `byTag` accumulation loop of scripts/fetch_wex.js lines 137-147. -/
def byTag (articles : List Article) : List (String × TopicAcc) :=
  articles.foldl (fun m a => a.tags.foldl (fun m t => tagStep m a t) m) []

/-- One output topic (scripts/fetch_wex.js lines 149-155);
`Array.from` of the two JS sets keeps insertion order. -/
structure Topic where
  name : String
  count : Nat
  sampleTitles : List String
  sections : List String
deriving DecidableEq

/-- Conversion of a `byTag` value to an output topic. -/
def finalizeTopic (acc : TopicAcc) : Topic :=
  ⟨acc.name, acc.count, acc.sampleTitles, acc.sections⟩

/-- The topics in first-seen (map insertion) order, before ranking. -/
def rawTopics (articles : List Article) : List Topic :=
  (byTag articles).map (fun p => finalizeTopic p.2)

/-- Comparator order of `.sort((a, b) => b.count - a.count)`: `a` sorts no
later than `b` iff the comparator is non-positive.  JS sort is stable, so
the embedding is a stable insertion sort under this relation. -/
def topicGE (a b : Topic) : Prop := b.count ≤ a.count

instance : DecidableRel topicGE := fun a b => Nat.decLe b.count a.count

instance : IsTotal Topic topicGE := ⟨fun a b => Nat.le_total b.count a.count⟩

instance : IsTrans Topic topicGE := ⟨fun _ _ _ h1 h2 => Nat.le_trans h2 h1⟩

/-- The `topics` array of scripts/fetch_wex.js lines 149-156. -/
def topicsOf (articles : List Article) : List Topic :=
  List.insertionSort topicGE (rawTopics articles)

/-- Occurrence count of a string in a list (with multiplicity). -/
def countTag : List String → String → Nat
  | [], _ => 0
  | x :: l, t => (if x = t then 1 else 0) + countTag l t

/-- Occurrences of trimmed tag `t` across all articles, with multiplicity:
the number of (article, tag-position) pairs whose trimmed tag is `t`. -/
def tagOccurrences (articles : List Article) (t : String) : Nat :=
  (articles.map (fun a => countTag (a.tags.map jsTrim) t)).sum

/-- Number of articles whose (trimmed) tag list contains `t` — the measure
the specification uses for `TopicSummary.count`. -/
def articlesContaining (articles : List Article) (t : String) : Nat :=
  (articles.filter (fun a => t ∈ a.tags.map jsTrim)).length

/-- The count stored in a `byTag` map for key `t` (0 when absent). -/
def countOf (m : List (String × TopicAcc)) (t : String) : Nat :=
  match lookupKey m t with
  | some o => o.count
  | none => 0

/-- Sum of all counts in a `byTag` map. -/
def totalCount (m : List (String × TopicAcc)) : Nat :=
  (m.map (fun p => p.2.count)).sum

/-- Inner loop of the aggregation: fold one article's tags into the map. -/
def tagsFold (m : List (String × TopicAcc)) (a : Article) (ts : List String) :
    List (String × TopicAcc) :=
  ts.foldl (fun m t => tagStep m a t) m

/-- Outer loop of the aggregation: fold a list of articles into the map. -/
def articlesFold (m : List (String × TopicAcc)) (articles : List Article) :
    List (String × TopicAcc) :=
  articles.foldl (fun m a => tagsFold m a a.tags) m

/-- Map invariants of the aggregation: each binding's stored name is its
key, and each stored count is positive. -/
def MapInv (m : List (String × TopicAcc)) : Prop :=
  ∀ p ∈ m, p.2.name = p.1 ∧ 1 ≤ p.2.count

/-- An article whose normalized tag list repeats a tag: permitted by the
data model ("deduplication not required at this level"). -/
def dupTagArticle : Article := ⟨"", "", "", "", [], ["a", "a"]⟩

/-- C1 witness article: one title, one section, one tag. -/
def c1WitnessArticle : Article := ⟨"t1", "", "", "s1", [], ["x"]⟩

/-- `String(n).padStart(3, "0")`. -/
def pad3 (n : Nat) : List Char :=
  List.replicate (3 - (natDigits n).length) '0' ++ natDigits n

/-- `String(n).padStart(4, "0")` (the year field of `toISOString`). -/
def pad4 (n : Nat) : List Char :=
  List.replicate (4 - (natDigits n).length) '0' ++ natDigits n

/-- `new Date(ms).toISOString()` for a non-negative epoch millisecond
timestamp (years 1970-9999): `YYYY-MM-DDTHH:mm:ss.sssZ`. -/
def isoOfMs (ms : Nat) : String :=
  let c := iterNext (ms / 86400000) ⟨1970, 1, 1⟩
  let rem := ms % 86400000
  ⟨pad4 c.year.toNat ++ '-' :: pad2 c.month ++ '-' :: pad2 c.day
    ++ 'T' :: pad2 (rem / 3600000) ++ ':' :: pad2 (rem % 3600000 / 60000)
    ++ ':' :: pad2 (rem % 60000 / 1000) ++ '.' :: pad3 (rem % 1000) ++ ['Z']⟩

/-- One raw WEX API item, with every alternative field the normalization
of scripts/fetch_wex.js lines 119-128 consults (`sectionName` embeds the
JS field `section`). -/
structure WexItem where
  title : Option String
  headline : Option String
  slug : Option String
  id : Option String
  publishedAt : Option String
  published_at : Option String
  date : Option String
  sectionName : Option String
  channel : Option String
  tags : TagsVal
  authors : AuthVal
deriving DecidableEq

/-- A JS `a || b || ... || ""` chain over possibly-absent strings: first
present non-empty value, else `""`. -/
def jsFirstTruthy : List (Option String) → String
  | [] => ""
  | some s :: rest => if s = "" then jsFirstTruthy rest else s
  | none :: rest => jsFirstTruthy rest

/-- The per-item normalization of scripts/fetch_wex.js lines 119-128. -/
def normalizeItem (it : WexItem) : Article :=
  ⟨jsFirstTruthy [it.title, it.headline],
   jsFirstTruthy [it.slug, it.id],
   jsFirstTruthy [it.publishedAt, it.published_at, it.date],
   jsFirstTruthy [it.sectionName, it.channel],
   normalizeAuthors it.authors,
   normalizeTags it.tags⟩

/-- A sample article of the output (scripts/fetch_wex.js line 164). -/
structure SampleArticle where
  title : String
  publishedAt : String
  sectionName : String
deriving DecidableEq

/-- The output document of scripts/fetch_wex.js lines 158-165. -/
structure WexOut where
  updatedAt : String
  fromISO : String
  toISO : String
  totalArticles : Nat
  topics : List Topic
  sampleArticles : List SampleArticle
deriving DecidableEq

/-- `main` of scripts/fetch_wex.js as a function of the two clock reads
(`startMs` at line 62-63, `endMs` at line 159), the `sinceHours` option
and the upstream items. -/
def buildWexOut (startMs endMs : Nat) (sinceHours : Nat) (items : List WexItem) : WexOut :=
  let all := items.map normalizeItem
  ⟨isoOfMs endMs,
   isoOfMs (startMs - sinceHours * 3600 * 1000),
   isoOfMs startMs,
   all.length,
   topicsOf all,
   (all.take 10).map (fun a => ⟨a.title, a.publishedAt, a.sectionName⟩)⟩

/-- One response cell. -/
structure GACell where
  value : Option String
deriving DecidableEq

/-- One response row. -/
structure GARow where
  dimensionValues : List GACell
  metricValues : List GACell
deriving DecidableEq

/-- `r.dimensionValues?.[i]?.value`. -/
def dimVal (r : GARow) (i : Nat) : Option String :=
  (r.dimensionValues.get? i).bind (fun c => c.value)

/-- `r.metricValues?.[i]?.value`. -/
def metVal (r : GARow) (i : Nat) : Option String :=
  (r.metricValues.get? i).bind (fun c => c.value)

/-- JS `v || d` for a possibly-absent string `v`: `d` when `v` is nullish
or empty. -/
def jsOr (v : Option String) (d : String) : String :=
  match v with
  | some s => if s = "" then d else s
  | none => d

/-- Models JS `(+s || 0)` on the non-negative decimal integer strings the
GA4 API returns for user counts: the numeric value of an all-digit string,
0 otherwise (a non-numeric string coerces to NaN, and both NaN and 0 fall
to the `|| 0` default). -/
def jsPlusOr0 (s : String) : Nat :=
  if s.data ≠ [] ∧ ∀ c ∈ s.data, 48 ≤ c.toNat ∧ c.toNat ≤ 57 then digitsVal s.data else 0

/-- One author entry (scripts/fetch_ga4.js lines 573-577); the API metric
values are kept as strings, as in the source. -/
structure AuthorEntry where
  author : String
  users : String
  views : String
deriving DecidableEq

/-- The comparator order of `.sort((a, b) => (+b.users || 0) - (+a.users || 0))`
(descending by users); JS sort is stable. -/
def authGE (a b : AuthorEntry) : Prop := jsPlusOr0 b.users ≤ jsPlusOr0 a.users

instance : DecidableRel authGE := fun a b => Nat.decLe _ _

/-- The per-day post-processing of scripts/fetch_ga4.js lines 579-581:
sort descending by users, then `.reverse()`, then `slice(0, 10)`. -/
def sortAuthorsDay (l : List AuthorEntry) : List AuthorEntry :=
  ((List.insertionSort authGE l).reverse).take 10

/-- `if (!map.has(d)) map.set(d, []); map.get(d).push(e)`. -/
def pushKey {β : Type} (m : List (String × List β)) (k : String) (e : β) :
    List (String × List β) :=
  match lookupKey m k with
  | some l => setKey m k (l ++ [e])
  | none => setKey m k [e]

/-- The date key of a row: `r.dimensionValues[0].value` (always present
in an API response row; absent cells read as `""`). -/
def dayKeyOf (r : GARow) : String := (dimVal r 0).getD ""

/-- The entry built from a row (scripts/fetch_ga4.js lines 573-575). -/
def mkAuthorEntry (r : GARow) : AuthorEntry :=
  ⟨jsOr (dimVal r 1) "(not set)", jsOr (metVal r 0) "0", jsOr (metVal r 1) "0"⟩

/-- The grouping loop of scripts/fetch_ga4.js lines 570-578. -/
def groupAuthors (rows : List GARow) : List (String × List AuthorEntry) :=
  rows.foldl (fun m r => pushKey m (dayKeyOf r) (mkAuthorEntry r)) []

/-- The whole per-day authors map built from the accepted candidate's
rows (scripts/fetch_ga4.js lines 570-583). -/
def buildAuthorsMap (rows : List GARow) : List (String × List AuthorEntry) :=
  (groupAuthors rows).map (fun p => (p.1, sortAuthorsDay p.2))

/-- The probe's row acceptance test (scripts/fetch_ga4.js lines 564-566):
`(r.dimensionValues?.[1]?.value || "").trim() !== ""`. -/
def rowNonEmpty (r : GARow) : Bool := jsTrim ((dimVal r 1).getD "") ≠ ""

/-- `fetchAuthorsPerDay` of scripts/fetch_ga4.js lines 555-591: try each
candidate dimension; a throwing report or one with no non-empty rows
falls through to the next candidate; exhaustion yields an empty map.  The
report runner is a parameter (`Except` models a thrown error). -/
def fetchAuthorsPerDay (cands : List String)
    (run : String → Except String (List GARow)) : List (String × List AuthorEntry) :=
  match cands with
  | [] => []
  | dim :: rest =>
    match run dim with
    | .error _ => fetchAuthorsPerDay rest run
    | .ok rows =>
      if 0 < (rows.filter rowNonEmpty).length then buildAuthorsMap (rows.filter rowNonEmpty)
      else fetchAuthorsPerDay rest run

/-- Modelled from the spec (§4.5 Dimension Fallback Probe): "attempt an
ordered list of candidate dimension names; accept the first candidate
whose result set contains at least one row with a non-empty dimension
value; otherwise fall through to the next candidate; if all candidates
are exhausted, return an empty result rather than failing"; a failed
attempt "is logged and treated as 'no rows,' proceeding to the next
candidate".  Yields the accepted candidate's non-empty rows. -/
def specFirstUsable (cands : List String)
    (run : String → Except String (List GARow)) : Option (List GARow) :=
  match cands with
  | [] => none
  | dim :: rest =>
    match run dim with
    | .error _ => specFirstUsable rest run
    | .ok rows =>
      if 0 < (rows.filter rowNonEmpty).length then some (rows.filter rowNonEmpty)
      else specFirstUsable rest run

/-- A concrete probe scenario row. -/
def gaRow (d author users views : String) : GARow :=
  ⟨[⟨some d⟩, ⟨some author⟩], [⟨some users⟩, ⟨some views⟩]⟩

/-- The probe scenario of the spec: candidate "x" yields no non-empty
rows, candidate "y" yields three. -/
def probeScenarioRun : String → Except String (List GARow) := fun dim =>
  if dim = "x" then .ok [gaRow "20250101" "" "7" "7"]
  else if dim = "y" then
    .ok [gaRow "20250101" "A" "3" "3", gaRow "20250101" "B" "2" "2",
         gaRow "20250101" "C" "1" "1"]
  else .error "invalid dimension"

/-- One referrer entry. -/
structure RefEntry where
  source : String
  users : String
deriving DecidableEq

/-- One output day row (scripts/fetch_ga4.js lines 518-528); `referrers`
and `authors` are `Option`s so that their presence is a provable fact of
the merge rather than of the embedding's types. -/
structure KpiRow where
  date : String
  totalUsers : String
  newUsers : String
  pageviews : String
  sessions : String
  bounceRate : String
  averageSessionDuration : String
  referrers : Option (List RefEntry)
  authors : Option (List AuthorEntry)
deriving DecidableEq

/-- The row built for one KPI response row (scripts/fetch_ga4.js lines
517-528): metric strings defaulted with `|| "0"`, breakdowns `[]`. -/
def kpiOfRow (r : GARow) : KpiRow :=
  ⟨dayKeyOf r, jsOr (metVal r 0) "0", jsOr (metVal r 1) "0", jsOr (metVal r 2) "0",
   jsOr (metVal r 3) "0", jsOr (metVal r 4) "0", jsOr (metVal r 5) "0",
   some [], some []⟩

/-- `fetchDailyKPIs` of scripts/fetch_ga4.js lines 502-531: the response
rows keyed by date. -/
def buildKpiMap (rows : List GARow) : List (String × KpiRow) :=
  rows.foldl (fun m r => setKey m (dayKeyOf r) (kpiOfRow r)) []

/-- The zero row inserted for a day missing from the report
(scripts/fetch_ga4.js lines 613-625). -/
def zeroKpiRow (key : String) : KpiRow :=
  ⟨key, "0", "0", "0", "0", "0", "0", some [], some []⟩

/-- One iteration of the merge loop (scripts/fetch_ga4.js lines 606-628):
take the day's KPI row or the zero row, then attach
`refMap.get(key) || []` and `authMap.get(key) || []`. -/
def attachBreakdowns (key : String) (refMap : String → Option (List RefEntry))
    (authMap : String → Option (List AuthorEntry)) (o : Option KpiRow) : KpiRow :=
  let base := o.getD (zeroKpiRow key)
  { base with referrers := some ((refMap key).getD []),
              authors := some ((authMap key).getD []) }

/-- The merge loop over the enumerated days. -/
def mergeLoop (days : List Civil) (kpis : List (String × KpiRow))
    (refMap : String → Option (List RefEntry))
    (authMap : String → Option (List AuthorEntry)) : List (String × KpiRow) :=
  match days with
  | [] => kpis
  | d :: rest =>
    mergeLoop rest
      (setKey kpis (ymdCompact d)
        (attachBreakdowns (ymdCompact d) refMap authMap (lookupKey kpis (ymdCompact d))))
      refMap authMap

/-- Order of `.sort((a, b) => a.date.localeCompare(b.date))` (dates are
same-length digit strings, so `localeCompare` is lexicographic order). -/
def kpiLE (a b : KpiRow) : Prop := a.date ≤ b.date

instance : DecidableRel kpiLE := fun a b => (inferInstance : Decidable (a.date ≤ b.date))

instance : IsTotal KpiRow kpiLE := ⟨fun a b => le_total a.date b.date⟩

instance : IsTrans KpiRow kpiLE := ⟨fun _ _ _ h1 h2 => le_trans h1 h2⟩

/-- `Object.values(kpis).sort(...)` (scripts/fetch_ga4.js line 630). -/
def mergedRows (days : List Civil) (kpis : List (String × KpiRow))
    (refMap : String → Option (List RefEntry))
    (authMap : String → Option (List AuthorEntry)) : List KpiRow :=
  List.insertionSort kpiLE ((mergeLoop days kpis refMap authMap).map Prod.snd)

/-- The `rows` of the output document for a run: range resolved from
`today` and `n`, KPI report `kpiResp`, breakdown maps `refMap`/`authMap`. -/
def ga4Rows (today : Civil) (n : Nat) (kpiResp : List GARow)
    (refMap : String → Option (List RefEntry))
    (authMap : String → Option (List AuthorEntry)) : List KpiRow :=
  mergedRows (resolvedDays today n) (buildKpiMap kpiResp) refMap authMap

/-- Every binding of a merged or KPI map stores its key in `date`. -/
def DateInv (m : List (String × KpiRow)) : Prop := ∀ p ∈ m, p.2.date = p.1

/-- A one-day KPI response row for the witness run. -/
def kpiWitnessRow : GARow :=
  ⟨[⟨some "20240229"⟩],
   [⟨some "10"⟩, ⟨some "4"⟩, ⟨some "25"⟩, ⟨some "12"⟩, ⟨some "0.5"⟩, ⟨some "33.5"⟩]⟩

/-- An absent breakdown source (a branch that failed or returned no rows). -/
def noRefs : String → Option (List RefEntry) := fun _ => none

/-- An absent authors source. -/
def noAuths : String → Option (List AuthorEntry) := fun _ => none

/-- JS `Object.fromEntries(pairs)`: later duplicate keys overwrite in
place. -/
def fromEntriesJs {β : Type} (pairs : List (String × β)) : List (String × β) :=
  pairs.foldl (fun m p => setKey m p.1 p.2) []

/-- `col${i+1}` (src/unnamed/part_003 line 306). -/
def colName (n : Nat) : String := ⟨'c' :: 'o' :: 'l' :: natDigits n⟩

/-- The `[h, r[i]]` pairs of scripts/fetch_sheets.js line 29; a data cell
past the row's end is `undefined`. -/
def simplePairs (headers : List String) (r : List String) (i : Nat) :
    List (String × Option String) :=
  match headers with
  | [] => []
  | h :: rest => (h, r.get? i) :: simplePairs rest r (i + 1)

/-- One SheetRow of scripts/fetch_sheets.js lines 28-30. -/
def sheetRowSimple (header : List String) (r : List String) :
    List (String × Option String) :=
  fromEntriesJs (simplePairs header r 0)

/-- The `row[h || col...] = r[i] ?? ''` assignments of
src/unnamed/part_003 lines 304-307, on the trimmed headers. -/
def placeholderPairs (headers : List String) (r : List String) (i : Nat) :
    List (String × String) :=
  match headers with
  | [] => []
  | h :: rest =>
    (if jsTrim h = "" then colName (i + 1) else jsTrim h, (r.get? i).getD "")
      :: placeholderPairs rest r (i + 1)

/-- One SheetRow of src/unnamed/part_003 lines 302-308. -/
def sheetRowPlaceholder (header : List String) (r : List String) :
    List (String × String) :=
  fromEntriesJs (placeholderPairs header r 0)

/-- A JS number: finite (modelled exactly as a rational), NaN, or an
infinity. -/
inductive JsNum where
  | finite (q : Rat)
  | nan
  | posInf
  | negInf
deriving DecidableEq

/-- `Number.isFinite(n)`. -/
def JsNum.isFinite : JsNum → Bool
  | .finite _ => true
  | _ => false

/-- `num(row, idx)` of scripts/fetch_ga4.js lines 171-175:
`const v = row?.metricValues?.[idx]?.value ?? row?.dimensionValues?.[idx]?.value ?? "0";
const n = Number(v); return Number.isFinite(n) ? n : 0;`. -/
def num (toNumber : String → JsNum) (row : Option GARow) (idx : Nat) : JsNum :=
  let v := ((row.bind (fun r => metVal r idx)).orElse
    (fun _ => row.bind (fun r => dimVal r idx))).getD "0"
  let n := toNumber v
  if n.isFinite then n else .finite 0

/-- `toInt(x)` of scripts/fetch_ga4.js lines 689-693:
`if (x == null) return 0; const n = Number(x); return Number.isFinite(n) ? n : 0;`. -/
def toInt (toNumber : String → JsNum) (x : Option String) : JsNum :=
  match x with
  | none => .finite 0
  | some s =>
    let n := toNumber s
    if n.isFinite then n else .finite 0

/-- `asNumber(x)` of src/unnamed/part_003 lines 118-121:
`const n = Number(x ?? 0); return Number.isFinite(n) ? n : 0;`
(`Number(0)` is the finite 0). -/
def asNumber (toNumber : String → JsNum) (x : Option String) : JsNum :=
  match x with
  | none => .finite 0
  | some s =>
    let n := toNumber s
    if n.isFinite then n else .finite 0

/-- A concrete `Number(...)` fragment for the witness: the value of an
all-digit string, NaN otherwise. -/
def toNumberDec (s : String) : JsNum :=
  if s.data ≠ [] ∧ ∀ c ∈ s.data, 48 ≤ c.toNat ∧ c.toNat ≤ 57
  then .finite (digitsVal s.data) else .nan

theorem one_le_daysInMonth (y : Int) (m : Nat) : 1 ≤ daysInMonth y m := by
  unfold daysInMonth
  split
  · split <;> omega
  · split <;> omega

theorem daysInMonth_le_31 (y : Int) (m : Nat) : daysInMonth y m ≤ 31 := by
  unfold daysInMonth
  split
  · split <;> omega
  · split <;> omega

theorem daysInMonth_twelve (y : Int) : daysInMonth y 12 = 31 := by
  unfold daysInMonth
  norm_num

theorem valid_mk_iff (y : Int) (m d : Nat) :
    (Civil.mk y m d).Valid ↔ 1 ≤ m ∧ m ≤ 12 ∧ 1 ≤ d ∧ d ≤ daysInMonth y m :=
  Iff.rfl

theorem nextDay_mk (y : Int) (m d : Nat) :
    nextDay ⟨y, m, d⟩ =
      if d < daysInMonth y m then ⟨y, m, d + 1⟩
      else if m < 12 then ⟨y, m + 1, 1⟩ else ⟨y + 1, 1, 1⟩ := rfl

theorem prevDay_mk (y : Int) (m d : Nat) :
    prevDay ⟨y, m, d⟩ =
      if 1 < d then ⟨y, m, d - 1⟩
      else if 1 < m then ⟨y, m - 1, daysInMonth y (m - 1)⟩ else ⟨y - 1, 12, 31⟩ := rfl

theorem valid_nextDay {c : Civil} (h : c.Valid) : (nextDay c).Valid := by
  obtain ⟨y, m, d⟩ := c
  rw [valid_mk_iff] at h
  have e1 := one_le_daysInMonth y (m + 1)
  have e2 := one_le_daysInMonth (y + 1) 1
  rw [nextDay_mk]
  split_ifs with h1 h2
  · rw [valid_mk_iff]
    exact ⟨by omega, by omega, by omega, by omega⟩
  · rw [valid_mk_iff]
    exact ⟨by omega, by omega, by omega, by omega⟩
  · rw [valid_mk_iff]
    exact ⟨by omega, by omega, by omega, by omega⟩

theorem valid_prevDay {c : Civil} (h : c.Valid) : (prevDay c).Valid := by
  obtain ⟨y, m, d⟩ := c
  rw [valid_mk_iff] at h
  have e1 := one_le_daysInMonth y (m - 1)
  have e2 := daysInMonth_twelve (y - 1)
  rw [prevDay_mk]
  split_ifs with h1 h2
  · rw [valid_mk_iff]
    exact ⟨by omega, by omega, by omega, by omega⟩
  · rw [valid_mk_iff]
    exact ⟨by omega, by omega, by omega, by omega⟩
  · rw [valid_mk_iff]
    exact ⟨by omega, by omega, by omega, by omega⟩

theorem nextDay_prevDay {c : Civil} (h : c.Valid) : nextDay (prevDay c) = c := by
  obtain ⟨y, m, d⟩ := c
  rw [valid_mk_iff] at h
  have e1 := one_le_daysInMonth y (m - 1)
  have e2 := daysInMonth_twelve (y - 1)
  have e3 := daysInMonth_le_31 y m
  rw [prevDay_mk]
  split_ifs with h1 h2
  · rw [nextDay_mk, if_pos (by omega)]
    simp only [Civil.mk.injEq, true_and, and_true]
    omega
  · rw [nextDay_mk, if_neg (by omega), if_pos (by omega)]
    simp only [Civil.mk.injEq, true_and, and_true]
    omega
  · rw [nextDay_mk, if_neg (by omega), if_neg (by omega)]
    simp only [Civil.mk.injEq, true_and, and_true]
    omega

theorem prevDay_nextDay {c : Civil} (h : c.Valid) : prevDay (nextDay c) = c := by
  obtain ⟨y, m, d⟩ := c
  rw [valid_mk_iff] at h
  have e1 := one_le_daysInMonth y m
  rw [nextDay_mk]
  split_ifs with h1 h2
  · rw [prevDay_mk, if_pos (by omega)]
    simp only [Civil.mk.injEq, true_and, and_true]
    omega
  · rw [prevDay_mk, if_neg (by omega), if_pos (by omega)]
    simp only [Civil.mk.injEq, Nat.add_sub_cancel, true_and, and_true]
    omega
  · have hm : m = 12 := by omega
    subst hm
    have e2 := daysInMonth_twelve y
    rw [prevDay_mk, if_neg (by omega), if_neg (by omega)]
    simp only [Civil.mk.injEq, true_and, and_true]
    omega

theorem rank_lt_nextDay {c : Civil} (h : c.Valid) : rank c < rank (nextDay c) := by
  obtain ⟨h1, h2, h3, h4⟩ := h
  have h31 := daysInMonth_le_31 c.year c.month
  unfold nextDay rank
  split
  · simp only; omega
  · split
    · simp only; omega
    · simp only; omega

theorem valid_subDays {c : Civil} (h : c.Valid) (n : Nat) : (subDays c n).Valid := by
  induction n generalizing c with
  | zero => exact h
  | succ n ih => exact ih (valid_prevDay h)

theorem subDays_prevDay {c : Civil} (n : Nat) :
    subDays (prevDay c) n = prevDay (subDays c n) := by
  induction n generalizing c with
  | zero => rfl
  | succ n ih =>
    show subDays (prevDay (prevDay c)) n = prevDay (subDays (prevDay c) n)
    exact ih

theorem iterNext_subDays {c : Civil} (h : c.Valid) (n : Nat) :
    iterNext n (subDays c n) = c := by
  induction n generalizing c with
  | zero => rfl
  | succ n ih =>
    show iterNext n (nextDay (subDays (prevDay c) n)) = c
    rw [subDays_prevDay, nextDay_prevDay (valid_subDays h n)]
    exact ih h

@[simp] theorem dayRange_length (c : Civil) (n : Nat) : (dayRange c n).length = n := by
  induction n generalizing c with
  | zero => rfl
  | succ n ih => simp [dayRange, ih]

theorem dayRange_valid {c : Civil} (h : c.Valid) (n : Nat) :
    ∀ d ∈ dayRange c n, d.Valid := by
  induction n generalizing c with
  | zero => intro d hd; cases hd
  | succ n ih =>
    intro d hd
    rcases List.mem_cons.mp hd with rfl | hd
    · exact h
    · exact ih (valid_nextDay h) d hd

theorem dayRange_rank_le {c : Civil} (h : c.Valid) (n : Nat) :
    ∀ d ∈ dayRange c n, rank c ≤ rank d := by
  induction n generalizing c with
  | zero => intro d hd; cases hd
  | succ n ih =>
    intro d hd
    rcases List.mem_cons.mp hd with rfl | hd
    · exact le_refl _
    · exact le_trans (le_of_lt (rank_lt_nextDay h)) (ih (valid_nextDay h) d hd)

theorem dayRange_pairwise_rank {c : Civil} (h : c.Valid) (n : Nat) :
    (dayRange c n).Pairwise (fun a b => rank a < rank b) := by
  induction n generalizing c with
  | zero => exact List.Pairwise.nil
  | succ n ih =>
    refine List.Pairwise.cons ?_ (ih (valid_nextDay h))
    intro b hb
    exact lt_of_lt_of_le (rank_lt_nextDay h) (dayRange_rank_le (valid_nextDay h) n b hb)

theorem dayRange_nodup {c : Civil} (h : c.Valid) (n : Nat) :
    (dayRange c n).Nodup := by
  refine (dayRange_pairwise_rank h n).imp ?_
  intro a b hab
  intro hEq
  rw [hEq] at hab
  exact lt_irrefl _ hab

theorem dayRange_chain (c : Civil) (n : Nat) :
    (dayRange c n).Chain' (fun a b => b = nextDay a) := by
  induction n generalizing c with
  | zero => exact List.chain'_nil
  | succ n ih =>
    cases n with
    | zero => simp [dayRange]
    | succ m =>
      refine List.Chain'.cons rfl ?_
      exact ih (c := nextDay c)

theorem dayRange_getLast (c : Civil) (n : Nat) :
    (dayRange c (n + 1)).getLast? = some (iterNext n c) := by
  induction n generalizing c with
  | zero => rfl
  | succ n ih =>
    have h1 : dayRange c (n + 2) = c :: nextDay c :: dayRange (nextDay (nextDay c)) n := rfl
    have h2 : dayRange (nextDay c) (n + 1) = nextDay c :: dayRange (nextDay (nextDay c)) n := rfl
    rw [h1, List.getLast?_cons_cons, ← h2, ih (nextDay c)]
    rfl

theorem dayRange_head (c : Civil) (n : Nat) :
    (dayRange c (n + 1)).head? = some c := rfl

theorem natDigitsGo_eq (n : Nat) : ∀ fuel acc, n < fuel →
    natDigitsGo fuel n acc = natDigits n ++ acc := by
  induction n using Nat.strong_induction_on with
  | _ n ih =>
    intro fuel acc hf
    match fuel with
    | fuel + 1 =>
      show (if n < 10 then digitChar n :: acc
            else natDigitsGo fuel (n / 10) (digitChar (n % 10) :: acc)) = _
      by_cases h10 : n < 10
      · rw [if_pos h10]
        have : natDigits n = [digitChar n] := by
          show (if n < 10 then _ else _) = _
          rw [if_pos h10]
        rw [this]
        rfl
      · rw [if_neg h10]
        have hdiv : n / 10 < n := Nat.div_lt_self (by omega) (by omega)
        rw [ih (n / 10) hdiv fuel _ (by omega)]
        have : natDigits n = natDigits (n / 10) ++ [digitChar (n % 10)] := by
          show natDigitsGo (n + 1) n [] = _
          show (if n < 10 then digitChar n :: [] else natDigitsGo n (n / 10) (digitChar (n % 10) :: [])) = _
          rw [if_neg h10]
          exact ih (n / 10) hdiv n _ (by omega)
        rw [this, List.append_assoc]
        rfl

/-- Unfolding rule for `natDigits`, hiding the fuel. -/
theorem natDigits_eq (n : Nat) :
    natDigits n = if n < 10 then [digitChar n] else natDigits (n / 10) ++ [digitChar (n % 10)] := by
  show natDigitsGo (n + 1) n [] = _
  by_cases h10 : n < 10
  · rw [if_pos h10]
    show (if n < 10 then _ else _) = _
    rw [if_pos h10]
  · rw [if_neg h10]
    show (if n < 10 then digitChar n :: [] else natDigitsGo n (n / 10) (digitChar (n % 10) :: [])) = _
    rw [if_neg h10]
    exact natDigitsGo_eq (n / 10) n _ (by omega)

theorem digitChar_toNat : ∀ n, n < 10 → (digitChar n).toNat = 48 + n := by decide

theorem digitsVal_go (l : List Char) : ∀ a,
    l.foldl (fun a c => 10 * a + (c.toNat - 48)) a =
      a * 10 ^ l.length + l.foldl (fun a c => 10 * a + (c.toNat - 48)) 0 := by
  induction l with
  | nil => intro a; simp
  | cons c t ih =>
    intro a
    show t.foldl _ (10 * a + (c.toNat - 48)) = _
    rw [ih (10 * a + (c.toNat - 48))]
    show _ = a * 10 ^ (t.length + 1) + t.foldl _ (10 * 0 + (c.toNat - 48))
    rw [ih (10 * 0 + (c.toNat - 48))]
    ring_nf
    omega

theorem digitsVal_natDigits (n : Nat) : digitsVal (natDigits n) = n := by
  induction n using Nat.strong_induction_on with
  | _ n ih =>
    rw [natDigits_eq]
    by_cases h10 : n < 10
    · rw [if_pos h10]
      show 10 * 0 + ((digitChar n).toNat - 48) = n
      rw [digitChar_toNat n h10]
      omega
    · rw [if_neg h10]
      unfold digitsVal
      rw [List.foldl_append]
      show (10 * digitsVal (natDigits (n / 10)) + ((digitChar (n % 10)).toNat - 48)) = n
      rw [ih (n / 10) (Nat.div_lt_self (by omega) (by omega)),
          digitChar_toNat (n % 10) (Nat.mod_lt n (by omega))]
      omega

theorem natDigits_injective {a b : Nat} (h : natDigits a = natDigits b) : a = b := by
  have := congrArg digitsVal h
  rwa [digitsVal_natDigits, digitsVal_natDigits] at this

theorem natDigits_ne_nil (n : Nat) : natDigits n ≠ [] := by
  rw [natDigits_eq]
  by_cases h10 : n < 10
  · rw [if_pos h10]; exact List.cons_ne_nil _ _
  · rw [if_neg h10]
    intro h
    exact absurd (List.append_eq_nil.mp h).2 (List.cons_ne_nil _ _)

theorem digitChar_isDigit : ∀ n, 48 ≤ (digitChar n).toNat ∧ (digitChar n).toNat ≤ 57 := by
  intro n
  unfold digitChar
  split_ifs <;> decide

theorem natDigits_isDigit (n : Nat) : ∀ c ∈ natDigits n, 48 ≤ c.toNat ∧ c.toNat ≤ 57 := by
  induction n using Nat.strong_induction_on with
  | _ n ih =>
    rw [natDigits_eq]
    by_cases h10 : n < 10
    · rw [if_pos h10]
      intro c hc
      rw [List.mem_singleton] at hc
      subst hc
      exact digitChar_isDigit n
    · rw [if_neg h10]
      intro c hc
      rcases List.mem_append.mp hc with hc | hc
      · exact ih (n / 10) (Nat.div_lt_self (by omega) (by omega)) c hc
      · rw [List.mem_singleton] at hc
        subst hc
        exact digitChar_isDigit (n % 10)

theorem natDigits_length_le_two {n : Nat} (h : n < 100) : (natDigits n).length ≤ 2 := by
  rw [natDigits_eq]
  by_cases h10 : n < 10
  · rw [if_pos h10]; simp
  · rw [if_neg h10]
    have : n / 10 < 10 := by omega
    rw [natDigits_eq, if_pos this]
    simp

theorem intChars_injective {a b : Int} (h : intChars a = intChars b) : a = b := by
  unfold intChars at h
  split_ifs at h with ha hb hb
  · have := natDigits_injective (List.cons.injEq .. ▸ h).2
    omega
  · exfalso
    have hd := natDigits_isDigit b.toNat '-' (by rw [← h]; exact List.mem_cons_self _ _)
    revert hd
    decide
  · exfalso
    have hd := natDigits_isDigit a.toNat '-' (by rw [h]; exact List.mem_cons_self _ _)
    revert hd
    decide
  · have := natDigits_injective h
    omega

theorem digitsVal_replicate_zero (k : Nat) (l : List Char) :
    digitsVal (List.replicate k '0' ++ l) = digitsVal l := by
  induction k with
  | zero => rfl
  | succ k ih =>
    show digitsVal ('0' :: (List.replicate k '0' ++ l)) = _
    unfold digitsVal at ih ⊢
    show (List.replicate k '0' ++ l).foldl _ (10 * 0 + ('0'.toNat - 48)) = _
    exact ih

theorem pad2_injective {a b : Nat} (h : pad2 a = pad2 b) : a = b := by
  have := congrArg digitsVal h
  unfold pad2 at this
  rw [digitsVal_replicate_zero, digitsVal_replicate_zero,
      digitsVal_natDigits, digitsVal_natDigits] at this
  exact this

theorem pad2_length {n : Nat} (h : n < 100) : (pad2 n).length = 2 := by
  unfold pad2
  have h1 := natDigits_length_le_two h
  have h2 : natDigits n ≠ [] := natDigits_ne_nil n
  have h3 : 1 ≤ (natDigits n).length := by
    cases hl : natDigits n with
    | nil => exact absurd hl h2
    | cons c t => simp
  rw [List.length_append, List.length_replicate]
  omega

theorem append_inj_of_length_right {l1 l2 r1 r2 : List Char}
    (h : l1 ++ r1 = l2 ++ r2) (hr : r1.length = r2.length) : l1 = l2 ∧ r1 = r2 := by
  have hl : l1.length = l2.length := by
    have := congrArg List.length h
    rw [List.length_append, List.length_append] at this
    omega
  exact ⟨List.append_inj_left h hl, List.append_inj_right h hl⟩

theorem ymdChars_injective {a b : Civil} (ha : a.Valid) (hb : b.Valid)
    (h : ymdChars a = ymdChars b) : a = b := by
  obtain ⟨ha1, ha2, ha3, ha4⟩ := ha
  obtain ⟨hb1, hb2, hb3, hb4⟩ := hb
  have hma : a.month < 100 := by omega
  have hmb : b.month < 100 := by omega
  have hda : a.day < 100 := by
    have := daysInMonth_le_31 a.year a.month
    omega
  have hdb : b.day < 100 := by
    have := daysInMonth_le_31 b.year b.month
    omega
  unfold ymdChars at h
  have hlen : ('-' :: (pad2 a.month ++ '-' :: pad2 a.day)).length
      = ('-' :: (pad2 b.month ++ '-' :: pad2 b.day)).length := by
    simp only [List.length_cons, List.length_append]
    rw [pad2_length hma, pad2_length hmb, pad2_length hda, pad2_length hdb]
  obtain ⟨hy, hrest⟩ := append_inj_of_length_right h hlen
  have hrest2 : pad2 a.month ++ '-' :: pad2 a.day = pad2 b.month ++ '-' :: pad2 b.day :=
    (List.cons.injEq .. ▸ hrest).2
  obtain ⟨hm, hd⟩ := append_inj_of_length_right hrest2 (by
    simp only [List.length_cons]
    rw [pad2_length hda, pad2_length hdb])
  have hdd : pad2 a.day = pad2 b.day := (List.cons.injEq .. ▸ hd).2
  obtain ⟨ya, ma, da⟩ := a
  obtain ⟨yb, mb, db⟩ := b
  simp only [Civil.mk.injEq]
  exact ⟨intChars_injective hy, pad2_injective hm, pad2_injective hdd⟩

theorem compactChars_injective {a b : Civil} (ha : a.Valid) (hb : b.Valid)
    (h : compactChars a = compactChars b) : a = b := by
  obtain ⟨ha1, ha2, ha3, ha4⟩ := ha
  obtain ⟨hb1, hb2, hb3, hb4⟩ := hb
  have hma : a.month < 100 := by omega
  have hmb : b.month < 100 := by omega
  have hda : a.day < 100 := by
    have := daysInMonth_le_31 a.year a.month
    omega
  have hdb : b.day < 100 := by
    have := daysInMonth_le_31 b.year b.month
    omega
  unfold compactChars at h
  obtain ⟨hy, hrest⟩ := append_inj_of_length_right h (by
    rw [List.length_append, List.length_append,
        pad2_length hma, pad2_length hmb, pad2_length hda, pad2_length hdb])
  obtain ⟨hm, hd⟩ := append_inj_of_length_right hrest (by
    rw [pad2_length hda, pad2_length hdb])
  obtain ⟨ya, ma, da⟩ := a
  obtain ⟨yb, mb, db⟩ := b
  simp only [Civil.mk.injEq]
  exact ⟨intChars_injective hy, pad2_injective hm, pad2_injective hd⟩

theorem toYMD_injective {a b : Civil} (ha : a.Valid) (hb : b.Valid)
    (h : toYMD a = toYMD b) : a = b :=
  ymdChars_injective ha hb (congrArg String.data h)

theorem ymdCompact_injective {a b : Civil} (ha : a.Valid) (hb : b.Valid)
    (h : ymdCompact a = ymdCompact b) : a = b :=
  compactChars_injective ha hb (congrArg String.data h)

/-- The compact form is the hyphenated form with the dashes removed
(`end.replaceAll("-", "")` of scripts/fetch_ga4.js line 87), for the
non-negative years on which `replaceAll` does not also strip a year sign. -/
theorem compact_eq_ymd_strip_dashes (c : Civil) (hy0 : 0 ≤ c.year) :
    (ymdChars c).filter (fun ch => ch ≠ '-') = compactChars c := by
  have hpadDigit : ∀ n, ∀ ch ∈ pad2 n, 48 ≤ ch.toNat ∧ ch.toNat ≤ 57 := by
    intro n ch hch
    unfold pad2 at hch
    rcases List.mem_append.mp hch with hch | hch
    · have := List.eq_of_mem_replicate hch
      subst this
      decide
    · exact natDigits_isDigit n ch hch
  have hfilter : ∀ l : List Char, (∀ ch ∈ l, 48 ≤ ch.toNat ∧ ch.toNat ≤ 57) →
      l.filter (fun ch => ch ≠ '-') = l := by
    intro l hl
    apply List.filter_eq_self.mpr
    intro ch hch
    have hd := hl ch hch
    have hne : ch ≠ '-' := by
      intro hEq
      subst hEq
      revert hd
      decide
    simp [hne]
  have hyChars : intChars c.year = natDigits c.year.toNat := by
    unfold intChars
    rw [if_neg (by omega)]
  have hdash : (fun ch => decide (ch ≠ '-')) '-' = false := by decide
  unfold ymdChars compactChars
  rw [hyChars, List.filter_append, hfilter _ (natDigits_isDigit _),
      List.filter_cons_of_neg (by simp), List.filter_append, hfilter _ (hpadDigit c.month),
      List.filter_cons_of_neg (by simp), hfilter _ (hpadDigit c.day)]

theorem resolvedDays_last {today : Civil} (h : today.Valid) {n : Nat} (hn : 1 ≤ n) :
    (resolvedDays today n).getLast? = some (rangeEnd today) := by
  obtain ⟨m, rfl⟩ : ∃ m, n = m + 1 := ⟨n - 1, by omega⟩
  unfold resolvedDays rangeStart rangeEnd
  rw [dayRange_getLast]
  have hsub : subDays today (m + 1) = subDays (prevDay today) m := rfl
  rw [hsub, iterNext_subDays (valid_prevDay h) m]

theorem dropWhile_dropWhile (p : Char → Bool) (l : List Char) :
    (l.dropWhile p).dropWhile p = l.dropWhile p := by
  induction l with
  | nil => rfl
  | cons a t ih =>
    by_cases hp : p a
    · rw [List.dropWhile_cons_of_pos hp]
      exact ih
    · rw [List.dropWhile_cons_of_neg hp, List.dropWhile_cons_of_neg hp]

theorem exists_dropWhile_eq_drop (p : Char → Bool) (l : List Char) :
    ∃ n, l.dropWhile p = l.drop n := by
  induction l with
  | nil => exact ⟨0, rfl⟩
  | cons a t ih =>
    by_cases hp : p a
    · obtain ⟨n, hn⟩ := ih
      refine ⟨n + 1, ?_⟩
      rw [List.dropWhile_cons_of_pos hp, List.drop_succ_cons, hn]
    · exact ⟨0, by rw [List.dropWhile_cons_of_neg hp]; rfl⟩

theorem trimRightL_trimRightL (l : List Char) :
    trimRightL (trimRightL l) = trimRightL l := by
  unfold trimRightL
  rw [List.reverse_reverse, dropWhile_dropWhile]

theorem trimLeftL_trimLeftL (l : List Char) :
    trimLeftL (trimLeftL l) = trimLeftL l := dropWhile_dropWhile isJsSpace l

theorem dropWhile_length_le (p : Char → Bool) (l : List Char) :
    (l.dropWhile p).length ≤ l.length := by
  induction l with
  | nil => exact le_refl _
  | cons a t ih =>
    by_cases hp : p a
    · rw [List.dropWhile_cons_of_pos hp]
      simp only [List.length_cons]
      omega
    · rw [List.dropWhile_cons_of_neg hp]

theorem trimLeftL_trimRightL_of_trimmed {l : List Char} (h : trimLeftL l = l) :
    trimLeftL (trimRightL l) = trimRightL l := by
  obtain ⟨n, hn⟩ := exists_dropWhile_eq_drop isJsSpace l.reverse
  have htake : trimRightL l = l.take (l.length - n) := by
    unfold trimRightL
    rw [hn, List.drop_reverse, List.reverse_reverse]
  cases l with
  | nil =>
    unfold trimRightL trimLeftL
    simp
  | cons a t =>
    have ha : isJsSpace a = false := by
      by_contra hcon
      have : isJsSpace a = true := by
        cases hcl : isJsSpace a
        · exact absurd hcl hcon
        · rfl
      unfold trimLeftL at h
      rw [List.dropWhile_cons_of_pos this] at h
      have := congrArg List.length h
      have hle := dropWhile_length_le isJsSpace t
      simp only [List.length_cons] at this
      omega
    rw [htake]
    cases hk : (a :: t).length - n with
    | zero => rfl
    | succ k =>
      rw [List.take_succ_cons]
      unfold trimLeftL
      rw [List.dropWhile_cons_of_neg (by rw [ha]; exact Bool.false_ne_true)]

theorem jsTrim_idem (s : String) : jsTrim (jsTrim s) = jsTrim s := by
  unfold jsTrim
  have h1 : trimLeftL (trimLeftL s.data) = trimLeftL s.data := trimLeftL_trimLeftL s.data
  have h2 : trimLeftL (trimRightL (trimLeftL s.data)) = trimRightL (trimLeftL s.data) :=
    trimLeftL_trimRightL_of_trimmed h1
  show (⟨trimRightL (trimLeftL (trimRightL (trimLeftL s.data)))⟩ : String) = _
  rw [h2, trimRightL_trimRightL]

theorem lookupKey_setKey_self {β : Type} (m : List (String × β)) (k : String) (v : β) :
    lookupKey (setKey m k v) k = some v := by
  induction m with
  | nil => simp [setKey, lookupKey]
  | cons p rest ih =>
    obtain ⟨k', v'⟩ := p
    unfold setKey
    by_cases h : k' = k
    · rw [if_pos h]
      simp [lookupKey]
    · rw [if_neg h]
      unfold lookupKey
      rw [if_neg h]
      exact ih

theorem lookupKey_setKey_ne {β : Type} (m : List (String × β)) {k k' : String} (v : β)
    (h : k' ≠ k) : lookupKey (setKey m k v) k' = lookupKey m k' := by
  induction m with
  | nil => simp [setKey, lookupKey, Ne.symm h]
  | cons p rest ih =>
    obtain ⟨k0, v0⟩ := p
    unfold setKey
    by_cases h0 : k0 = k
    · rw [if_pos h0]
      unfold lookupKey
      rw [if_neg (fun hEq => h hEq.symm), if_neg (by rw [h0]; exact fun hEq => h hEq.symm)]
    · rw [if_neg h0]
      unfold lookupKey
      by_cases h1 : k0 = k'
      · rw [if_pos h1, if_pos h1]
      · rw [if_neg h1, if_neg h1]
        exact ih

theorem keysOf_setKey_mem {β : Type} (m : List (String × β)) (k : String) (v : β)
    (h : k ∈ keysOf m) : keysOf (setKey m k v) = keysOf m := by
  induction m with
  | nil => cases h
  | cons p rest ih =>
    obtain ⟨k0, v0⟩ := p
    unfold setKey
    by_cases h0 : k0 = k
    · rw [if_pos h0]
      unfold keysOf
      simp [h0]
    · rw [if_neg h0]
      unfold keysOf at h ⊢
      simp only [List.map_cons] at h ⊢
      rcases List.mem_cons.mp h with hEq | hmem
      · exact absurd hEq.symm h0
      · have hrec := ih hmem
        unfold keysOf at hrec
        rw [hrec]

theorem keysOf_setKey_not_mem {β : Type} (m : List (String × β)) (k : String) (v : β)
    (h : k ∉ keysOf m) : keysOf (setKey m k v) = keysOf m ++ [k] := by
  induction m with
  | nil => rfl
  | cons p rest ih =>
    obtain ⟨k0, v0⟩ := p
    unfold setKey
    by_cases h0 : k0 = k
    · exact absurd (by rw [h0]; exact List.mem_cons_self _ _ : k ∈ keysOf (⟨k0, v0⟩ :: rest)) h
    · rw [if_neg h0]
      unfold keysOf at h ⊢
      simp only [List.map_cons, List.cons_append] at h ⊢
      have hrec := ih (fun hmem => h (List.mem_cons_of_mem _ hmem))
      unfold keysOf at hrec
      rw [hrec]

theorem mem_keysOf_iff_lookupKey {β : Type} (m : List (String × β)) (k : String) :
    k ∈ keysOf m ↔ lookupKey m k ≠ none := by
  induction m with
  | nil => simp [keysOf, lookupKey]
  | cons p rest ih =>
    obtain ⟨k0, v0⟩ := p
    unfold keysOf lookupKey
    simp only [List.map_cons, List.mem_cons]
    by_cases h0 : k0 = k
    · rw [if_pos h0]
      simp [h0]
    · rw [if_neg h0]
      constructor
      · intro h
        rcases h with hEq | hmem
        · exact absurd hEq.symm h0
        · exact ih.mp hmem
      · intro h
        exact Or.inr (ih.mpr h)

theorem nodup_keysOf_setKey {β : Type} (m : List (String × β)) (k : String) (v : β)
    (h : (keysOf m).Nodup) : (keysOf (setKey m k v)).Nodup := by
  by_cases hk : k ∈ keysOf m
  · rw [keysOf_setKey_mem m k v hk]
    exact h
  · rw [keysOf_setKey_not_mem m k v hk]
    rw [List.nodup_append]
    exact ⟨h, List.nodup_singleton k, by simpa using hk⟩

theorem lookupKey_of_mem_nodup {β : Type} {m : List (String × β)} {k : String} {v : β}
    (hmem : (k, v) ∈ m) (hnd : (keysOf m).Nodup) : lookupKey m k = some v := by
  induction m with
  | nil => cases hmem
  | cons p rest ih =>
    obtain ⟨k0, v0⟩ := p
    unfold keysOf at hnd
    simp only [List.map_cons, List.nodup_cons] at hnd
    unfold lookupKey
    rcases List.mem_cons.mp hmem with hEq | hmem2
    · obtain ⟨hk, hv⟩ := Prod.mk.injEq .. ▸ hEq
      rw [if_pos hk.symm]
      rw [hv]
    · by_cases h0 : k0 = k
      · exfalso
        apply hnd.1
        rw [h0]
        exact List.mem_map_of_mem Prod.fst hmem2
      · rw [if_neg h0]
        exact ih hmem2 hnd.2

theorem lookupKey_mem {β : Type} {m : List (String × β)} {k : String} {v : β}
    (h : lookupKey m k = some v) : (k, v) ∈ m := by
  induction m with
  | nil => cases h
  | cons p rest ih =>
    obtain ⟨k0, v0⟩ := p
    unfold lookupKey at h
    by_cases h0 : k0 = k
    · rw [if_pos h0] at h
      obtain rfl : v0 = v := Option.some.injEq .. ▸ h
      rw [← h0]
      exact List.mem_cons_self _ _
    · rw [if_neg h0] at h
      exact List.mem_cons_of_mem _ (ih h)

theorem mem_values_exists_key {β : Type} {m : List (String × β)} {v : β}
    (h : v ∈ m.map Prod.snd) : ∃ k, (k, v) ∈ m := by
  rcases List.mem_map.mp h with ⟨⟨k, v'⟩, hmem, hv⟩
  refine ⟨k, ?_⟩
  have hvv : v' = v := hv
  rw [← hvv]
  exact hmem

theorem mem_trim_filter {l : List String} {s : String}
    (h : s ∈ (l.map jsTrim).filter (fun s => s ≠ "")) : jsTrim s = s ∧ s ≠ "" := by
  have hmem := List.mem_of_mem_filter h
  have hne : s ≠ "" := by
    have := List.of_mem_filter h
    simpa using this
  rcases List.mem_map.mp hmem with ⟨t, _, ht⟩
  exact ⟨by rw [← ht, jsTrim_idem], hne⟩

theorem byTag_eq_articlesFold (articles : List Article) :
    byTag articles = articlesFold [] articles := rfl

theorem bumpAcc_count (a : Article) (o : TopicAcc) : (bumpAcc a o).count = o.count + 1 := rfl

theorem bumpAcc_name (a : Article) (o : TopicAcc) : (bumpAcc a o).name = o.name := rfl

theorem countOf_tagStep (m : List (String × TopicAcc)) (a : Article) (tg t : String) :
    countOf (tagStep m a tg) t = countOf m t + (if jsTrim tg = t then 1 else 0) := by
  unfold tagStep countOf
  by_cases h : jsTrim tg = t
  · rw [if_pos h, ← h, lookupKey_setKey_self]
    cases hl : lookupKey m (jsTrim tg) <;> simp [hl, Option.getD, bumpAcc_count]
  · rw [if_neg h, lookupKey_setKey_ne _ _ (fun hEq => h hEq.symm)]
    omega

theorem totalCount_setKey (m : List (String × TopicAcc)) (k : String) (v : TopicAcc) :
    totalCount (setKey m k v) + countOf m k = totalCount m + v.count := by
  induction m with
  | nil =>
    unfold setKey totalCount countOf lookupKey
    simp
  | cons p rest ih =>
    obtain ⟨k0, v0⟩ := p
    unfold setKey
    by_cases h0 : k0 = k
    · rw [if_pos h0]
      unfold totalCount countOf lookupKey
      rw [if_pos h0]
      simp only [List.map_cons, List.sum_cons]
      omega
    · rw [if_neg h0]
      unfold totalCount countOf lookupKey
      rw [if_neg h0]
      simp only [List.map_cons, List.sum_cons]
      unfold totalCount countOf at ih
      omega

theorem totalCount_tagStep (m : List (String × TopicAcc)) (a : Article) (tg : String) :
    totalCount (tagStep m a tg) = totalCount m + 1 := by
  show totalCount (setKey m (jsTrim tg)
    (bumpAcc a ((lookupKey m (jsTrim tg)).getD ⟨jsTrim tg, 0, [], []⟩))) = totalCount m + 1
  have hset := totalCount_setKey m (jsTrim tg)
    (bumpAcc a ((lookupKey m (jsTrim tg)).getD ⟨jsTrim tg, 0, [], []⟩))
  have hc : (bumpAcc a ((lookupKey m (jsTrim tg)).getD ⟨jsTrim tg, 0, [], []⟩)).count
      = countOf m (jsTrim tg) + 1 := by
    rw [bumpAcc_count]
    unfold countOf
    cases hl : lookupKey m (jsTrim tg) <;> simp [hl, Option.getD]
  omega

theorem countTag_cons (x : String) (l : List String) (t : String) :
    countTag (x :: l) t = (if x = t then 1 else 0) + countTag l t := rfl

theorem countOf_tagsFold (a : Article) (ts : List String) :
    ∀ m t, countOf (tagsFold m a ts) t = countOf m t + countTag (ts.map jsTrim) t := by
  induction ts with
  | nil => intro m t; simp [tagsFold, countTag]
  | cons tg rest ih =>
    intro m t
    show countOf (tagsFold (tagStep m a tg) a rest) t = _
    rw [ih (tagStep m a tg) t, countOf_tagStep]
    show _ = countOf m t + countTag (jsTrim tg :: rest.map jsTrim) t
    rw [countTag_cons]
    omega

theorem totalCount_tagsFold (a : Article) (ts : List String) :
    ∀ m, totalCount (tagsFold m a ts) = totalCount m + ts.length := by
  induction ts with
  | nil => intro m; rfl
  | cons tg rest ih =>
    intro m
    show totalCount (tagsFold (tagStep m a tg) a rest) = _
    rw [ih (tagStep m a tg), totalCount_tagStep]
    simp only [List.length_cons]
    omega

theorem countOf_articlesFold (articles : List Article) :
    ∀ m t, countOf (articlesFold m articles) t = countOf m t + tagOccurrences articles t := by
  induction articles with
  | nil => intro m t; simp [articlesFold, tagOccurrences]
  | cons a rest ih =>
    intro m t
    show countOf (articlesFold (tagsFold m a a.tags) rest) t = _
    rw [ih _ t, countOf_tagsFold]
    unfold tagOccurrences
    simp only [List.map_cons, List.sum_cons]
    omega

theorem totalCount_articlesFold (articles : List Article) :
    ∀ m, totalCount (articlesFold m articles)
      = totalCount m + (articles.map (fun a => a.tags.length)).sum := by
  induction articles with
  | nil => intro m; simp [articlesFold]
  | cons a rest ih =>
    intro m
    show totalCount (articlesFold (tagsFold m a a.tags) rest) = _
    rw [ih _, totalCount_tagsFold]
    simp only [List.map_cons, List.sum_cons]
    omega

theorem countOf_byTag (articles : List Article) (t : String) :
    countOf (byTag articles) t = tagOccurrences articles t := by
  rw [byTag_eq_articlesFold, countOf_articlesFold]
  simp [countOf, lookupKey]

theorem totalCount_byTag (articles : List Article) :
    totalCount (byTag articles) = (articles.map (fun a => a.tags.length)).sum := by
  rw [byTag_eq_articlesFold, totalCount_articlesFold]
  simp [totalCount]

/-- Members of `setKey m k v` are members of `m` or the new binding. -/
theorem mem_setKey {β : Type} {m : List (String × β)} {k : String} {v : β} {p : String × β}
    (h : p ∈ setKey m k v) : p ∈ m ∨ p = (k, v) := by
  induction m with
  | nil =>
    rcases List.mem_singleton.mp h with rfl
    exact Or.inr rfl
  | cons q rest ih =>
    obtain ⟨k0, v0⟩ := q
    unfold setKey at h
    by_cases h0 : k0 = k
    · rw [if_pos h0] at h
      rcases List.mem_cons.mp h with rfl | hmem
      · exact Or.inr rfl
      · exact Or.inl (List.mem_cons_of_mem _ hmem)
    · rw [if_neg h0] at h
      rcases List.mem_cons.mp h with rfl | hmem
      · exact Or.inl (List.mem_cons_self _ _)
      · rcases ih hmem with hmem2 | hEq
        · exact Or.inl (List.mem_cons_of_mem _ hmem2)
        · exact Or.inr hEq

theorem mapInv_tagStep {m : List (String × TopicAcc)} (hm : MapInv m) (a : Article)
    (tg : String) : MapInv (tagStep m a tg) := by
  intro p hp
  rcases mem_setKey hp with hmem | hEq
  · exact hm p hmem
  · subst hEq
    constructor
    · show (bumpAcc a ((lookupKey m (jsTrim tg)).getD ⟨jsTrim tg, 0, [], []⟩)).name = jsTrim tg
      rw [bumpAcc_name]
      cases hl : lookupKey m (jsTrim tg) with
      | none => rfl
      | some o =>
        show o.name = jsTrim tg
        exact (hm (jsTrim tg, o) (lookupKey_mem hl)).1
    · show 1 ≤ (bumpAcc a ((lookupKey m (jsTrim tg)).getD ⟨jsTrim tg, 0, [], []⟩)).count
      rw [bumpAcc_count]
      omega

theorem nodup_keysOf_tagStep {m : List (String × TopicAcc)} (hm : (keysOf m).Nodup)
    (a : Article) (tg : String) : (keysOf (tagStep m a tg)).Nodup :=
  nodup_keysOf_setKey _ _ _ hm

theorem byTag_inv (articles : List Article) :
    MapInv (byTag articles) ∧ (keysOf (byTag articles)).Nodup := by
  rw [byTag_eq_articlesFold]
  have main : ∀ arts m, MapInv m → (keysOf m).Nodup →
      MapInv (articlesFold m arts) ∧ (keysOf (articlesFold m arts)).Nodup := by
    intro arts
    induction arts with
    | nil => intro m h1 h2; exact ⟨h1, h2⟩
    | cons a rest ih =>
      intro m h1 h2
      show MapInv (articlesFold (tagsFold m a a.tags) rest) ∧ _
      have inner : ∀ ts (m : List (String × TopicAcc)), MapInv m → (keysOf m).Nodup →
          MapInv (tagsFold m a ts) ∧ (keysOf (tagsFold m a ts)).Nodup := by
        intro ts
        induction ts with
        | nil => intro m h1 h2; exact ⟨h1, h2⟩
        | cons tg ts ih2 =>
          intro m h1 h2
          exact ih2 (tagStep m a tg) (mapInv_tagStep h1 a tg) (nodup_keysOf_tagStep h2 a tg)
      obtain ⟨h1a, h2a⟩ := inner a.tags m h1 h2
      exact ih _ h1a h2a
  exact main articles [] (fun p hp => absurd hp (List.not_mem_nil p)) List.nodup_nil

theorem countTag_nodup {l : List String} (h : l.Nodup) (t : String) :
    countTag l t = if t ∈ l then 1 else 0 := by
  induction l with
  | nil => simp [countTag]
  | cons x rest ih =>
    rw [List.nodup_cons] at h
    rw [countTag_cons, ih h.2]
    by_cases hx : x = t
    · subst hx
      rw [if_pos rfl, if_neg h.1, if_pos (List.mem_cons_self _ _)]
    · rw [if_neg hx]
      by_cases ht : t ∈ rest
      · rw [if_pos ht, if_pos (List.mem_cons_of_mem _ ht)]
      · rw [if_neg ht, if_neg (by
          intro hmem
          rcases List.mem_cons.mp hmem with hEq | hmem2
          · exact hx hEq.symm
          · exact ht hmem2)]

theorem tagOccurrences_eq_articlesContaining {articles : List Article}
    (h : ∀ a ∈ articles, (a.tags.map jsTrim).Nodup) (t : String) :
    tagOccurrences articles t = articlesContaining articles t := by
  induction articles with
  | nil => rfl
  | cons a rest ih =>
    unfold tagOccurrences articlesContaining at ih ⊢
    simp only [List.map_cons, List.sum_cons]
    rw [countTag_nodup (h a (List.mem_cons_self _ _)) t,
        ih (fun a ha => h a (List.mem_cons_of_mem _ ha))]
    by_cases hmem : t ∈ a.tags.map jsTrim
    · rw [if_pos hmem, List.filter_cons_of_pos (by simpa using hmem)]
      simp only [List.length_cons]
      omega
    · rw [if_neg hmem, List.filter_cons_of_neg (by simpa using hmem)]
      omega

/-- The names of the raw topics are exactly the keys of the `byTag` map. -/
theorem rawTopics_names (articles : List Article) :
    (rawTopics articles).map Topic.name = keysOf (byTag articles) := by
  unfold rawTopics keysOf
  rw [List.map_map]
  apply List.map_congr_left
  intro p hp
  show (finalizeTopic p.2).name = p.1
  exact ((byTag_inv articles).1 p hp).1

theorem rawTopics_counts (articles : List Article) :
    (rawTopics articles).map Topic.count = (byTag articles).map (fun p => p.2.count) := by
  unfold rawTopics
  rw [List.map_map]
  rfl

/-- C1, amended: the aggregation of scripts/fetch_wex.js lines 136-156
emits exactly one topic per distinct trimmed tag name, each topic's count
is the number of (article, tag-occurrence) pairs with that trimmed name
(so it equals the number of articles containing the tag whenever no
article repeats a trimmed tag), and the counts sum to the total number of
(article, tag) membership pairs. -/
theorem c1_topics_counts (articles : List Article) :
    ((topicsOf articles).map Topic.name).Nodup
    ∧ (∀ t, t ∈ (topicsOf articles).map Topic.name ↔ 0 < tagOccurrences articles t)
    ∧ (∀ tp ∈ topicsOf articles, tp.count = tagOccurrences articles tp.name)
    ∧ ((topicsOf articles).map Topic.count).sum
        = (articles.map (fun a => a.tags.length)).sum
    ∧ ((∀ a ∈ articles, (a.tags.map jsTrim).Nodup) →
        ∀ tp ∈ topicsOf articles, tp.count = articlesContaining articles tp.name) := by
  have hperm : List.Perm (topicsOf articles) (rawTopics articles) :=
    List.perm_insertionSort topicGE (rawTopics articles)
  have hpermName : List.Perm ((topicsOf articles).map Topic.name) (keysOf (byTag articles)) := by
    rw [← rawTopics_names]
    exact hperm.map Topic.name
  have hinv := (byTag_inv articles).1
  have hnd := (byTag_inv articles).2
  have hcount : ∀ tp ∈ topicsOf articles, tp.count = tagOccurrences articles tp.name := by
    intro tp htp
    have htp2 : tp ∈ rawTopics articles := hperm.mem_iff.mp htp
    unfold rawTopics at htp2
    rcases List.mem_map.mp htp2 with ⟨p, hpmem, hpeq⟩
    obtain ⟨k, o⟩ := p
    obtain ⟨hname, hcnt⟩ := hinv (k, o) hpmem
    have hlook : lookupKey (byTag articles) k = some o := lookupKey_of_mem_nodup hpmem hnd
    have hco : countOf (byTag articles) k = o.count := by
      unfold countOf
      rw [hlook]
    rw [← hpeq]
    show o.count = tagOccurrences articles (finalizeTopic o).name
    have : (finalizeTopic o).name = k := hname
    rw [this, ← countOf_byTag, hco]
  refine ⟨?_, ?_, hcount, ?_, ?_⟩
  · exact hpermName.nodup_iff.mpr hnd
  · intro t
    rw [hpermName.mem_iff, mem_keysOf_iff_lookupKey, ← countOf_byTag]
    unfold countOf
    cases hl : lookupKey (byTag articles) t with
    | none => simp
    | some o =>
      have hc2 : 1 ≤ o.count := (hinv (t, o) (lookupKey_mem hl)).2
      simp only [hl]
      constructor
      · intro _
        omega
      · intro _
        exact Option.some_ne_none o
  · rw [(hperm.map Topic.count).sum_eq, rawTopics_counts]
    exact totalCount_byTag articles
  · intro hnodup tp htp
    rw [hcount tp htp, tagOccurrences_eq_articlesContaining hnodup]

/-- C1, counterexample: for `dupTagArticle` the emitted count for tag "a"
is 2, but only one article contains that tag, refuting
"the count of the TopicSummary for tag t equals the number of Articles
containing that tag". -/
theorem c1_count_ne_articles :
    topicsOf [dupTagArticle] = [⟨"a", 2, [], []⟩]
    ∧ articlesContaining [dupTagArticle] "a" = 1 := by
  constructor
  · rfl
  · rfl

/-- C4: the topics of scripts/fetch_wex.js lines 149-156 are ranked by
count descending by a stable sort: on the spec scenario
`[["a","b"],["a"],["c"]]` the output is exactly
`[{a,2},{b,1},{c,1}]`; in general the output is sorted non-increasingly
by count and any two topics with equal counts keep their first-seen
relative order. -/
theorem c4_topics_ranking :
    topicsOf [⟨"", "", "", "", [], ["a", "b"]⟩, ⟨"", "", "", "", [], ["a"]⟩,
        ⟨"", "", "", "", [], ["c"]⟩]
      = [⟨"a", 2, [], []⟩, ⟨"b", 1, [], []⟩, ⟨"c", 1, [], []⟩]
    ∧ (∀ articles, (topicsOf articles).Sorted topicGE)
    ∧ (∀ articles (x y : Topic), x.count = y.count →
        List.Sublist [x, y] (rawTopics articles) →
        List.Sublist [x, y] (topicsOf articles)) := by
  refine ⟨rfl, ?_, ?_⟩
  · intro articles
    exact List.sorted_insertionSort topicGE (rawTopics articles)
  · intro articles x y hc hsub
    exact List.pair_sublist_insertionSort (le_of_eq hc.symm) hsub

/-- C4 witness: the stability clause applied to the tied topics of the
scenario input. -/
theorem c4_topics_ranking_witness :
    List.Sublist [(⟨"b", 1, [], []⟩ : Topic), ⟨"c", 1, [], []⟩]
      (topicsOf [⟨"", "", "", "", [], ["a", "b"]⟩, ⟨"", "", "", "", [], ["a"]⟩,
        ⟨"", "", "", "", [], ["c"]⟩]) :=
  c4_topics_ranking.2.2 _ ⟨"b", 1, [], []⟩ ⟨"c", 1, [], []⟩ rfl (by decide)

/-- C1 witness: the amended count clause applied at a concrete input. -/
theorem c1_topics_counts_witness :
    (⟨"x", 1, ["t1"], ["s1"]⟩ : Topic).count = articlesContaining [c1WitnessArticle] "x" :=
  (c1_topics_counts [c1WitnessArticle]).2.2.2.2 (by decide)
    ⟨"x", 1, ["t1"], ["s1"]⟩ (by decide)

/-- C3: for every lookback window `n ≥ 1` and valid "today", the resolved
interval (scripts/fetch_ga4.js lines 36-39) consists of exactly `n`
contiguous calendar days with no gaps, ends at yesterday, and has
duplicate-free hyphenated and compact renderings; for non-negative years
the compact form is the hyphenated form with dashes stripped. -/
theorem c3_date_range_resolver (today : Civil) (h : today.Valid) (n : Nat) (hn : 1 ≤ n) :
    (resolvedDays today n).length = n
    ∧ (resolvedDays today n).Chain' (fun a b => b = nextDay a)
    ∧ (resolvedDays today n).getLast? = some (rangeEnd today)
    ∧ ((resolvedDays today n).map toYMD).Nodup
    ∧ ((resolvedDays today n).map ymdCompact).Nodup
    ∧ ∀ c ∈ resolvedDays today n, 0 ≤ c.year →
        (toYMD c).data.filter (fun ch => ch ≠ '-') = (ymdCompact c).data := by
  have hstart : (rangeStart today n).Valid := valid_subDays h n
  have hvalid : ∀ c ∈ resolvedDays today n, c.Valid := dayRange_valid hstart n
  have hnodup : (resolvedDays today n).Nodup := dayRange_nodup hstart n
  refine ⟨dayRange_length _ n, dayRange_chain _ n, resolvedDays_last h hn, ?_, ?_, ?_⟩
  · exact List.Nodup.map_on
      (fun x hx y hy hEq => toYMD_injective (hvalid x hx) (hvalid y hy) hEq) hnodup
  · exact List.Nodup.map_on
      (fun x hx y hy hEq => ymdCompact_injective (hvalid x hx) (hvalid y hy) hEq) hnodup
  · intro c _ hy0
    exact compact_eq_ymd_strip_dashes c hy0

/-- C3 witness: a three-day window resolved from 2024-03-01 ends at the
leap day 2024-02-29. -/
theorem c3_date_range_resolver_witness :
    (resolvedDays ⟨2024, 3, 1⟩ 3).length = 3
    ∧ (resolvedDays ⟨2024, 3, 1⟩ 3).getLast? = some (rangeEnd ⟨2024, 3, 1⟩) :=
  ⟨(c3_date_range_resolver ⟨2024, 3, 1⟩ (by decide) 3 (by decide)).1,
   (c3_date_range_resolver ⟨2024, 3, 1⟩ (by decide) 3 (by decide)).2.2.1⟩

/-- C7, amended: `normalizeTags` yields trimmed non-empty strings for every
input shape, and `normalizeAuthors` does so for comma-separated string
input (and maps absent input to `[]`); its array branch, by contrast, only
stringifies elements, without trimming or filtering. -/
theorem c7_normalization_trimmed (v : TagsVal) (w : String) :
    (∀ s ∈ normalizeTags v, jsTrim s = s ∧ s ≠ "")
    ∧ (∀ s ∈ normalizeAuthors (.str w), jsTrim s = s ∧ s ≠ "")
    ∧ normalizeAuthors .missing = [] := by
  refine ⟨?_, ?_, rfl⟩
  · match v with
    | .missing => intro s hs; cases hs
    | .arr es => exact fun s hs => mem_trim_filter hs
    | .str t =>
      intro s hs
      simp only [normalizeTags] at hs
      by_cases ht : t = ""
      · rw [if_pos ht] at hs
        cases hs
      · rw [if_neg ht] at hs
        exact mem_trim_filter hs
  · intro s hs
    simp only [normalizeAuthors] at hs
    by_cases hw : w = ""
    · rw [if_pos hw] at hs
      cases hs
    · rw [if_neg hw] at hs
      exact mem_trim_filter hs

/-- C7, counterexample: an authors array containing `" John "` and `""`
normalizes to itself — neither trimmed nor filtered of empty strings —
refuting the claim for array-shaped author input. -/
theorem c7_array_counterexample :
    normalizeAuthors (.arr [.plain " John ", .plain ""]) = [" John ", ""]
    ∧ ¬ (∀ s ∈ normalizeAuthors (.arr [.plain " John ", .plain ""]),
          jsTrim s = s ∧ s ≠ "") := by
  constructor
  · rfl
  · intro h
    exact absurd ((h " John " (List.mem_cons_self _ _)).1) (by decide)

/-- C7 witness: the string-input clause applied to `" a , b "`. -/
theorem c7_normalization_trimmed_witness :
    jsTrim "a" = "a" ∧ "a" ≠ "" :=
  (c7_normalization_trimmed (.str " a ,, b ") "").1 "a" (by decide)

/-- C8, amended: two runs over the same upstream items agree on every
field that is not derived from the clock — `totalArticles`, `topics` and
`sampleArticles` — while `updatedAt`, `fromISO` and `toISO` are
timestamps of the run. -/
theorem c8_idempotent_except_timestamps (startMs endMs startMs' endMs' sinceHours : Nat)
    (items : List WexItem) :
    (buildWexOut startMs endMs sinceHours items).totalArticles
        = (buildWexOut startMs' endMs' sinceHours items).totalArticles
    ∧ (buildWexOut startMs endMs sinceHours items).topics
        = (buildWexOut startMs' endMs' sinceHours items).topics
    ∧ (buildWexOut startMs endMs sinceHours items).sampleArticles
        = (buildWexOut startMs' endMs' sinceHours items).sampleArticles :=
  ⟨rfl, rfl, rfl⟩

/-- C8, counterexample: two runs with identical (empty) upstream items one
millisecond apart differ in `fromISO` and `toISO` as well, so replacing
only `updatedAt` does not reconcile the outputs — the documents are not
"byte-identical except for updatedAt". -/
theorem c8_counterexample :
    ¬ ({ buildWexOut 172800001 172800001 24 [] with
          updatedAt := (buildWexOut 172800000 172800000 24 []).updatedAt }
        = buildWexOut 172800000 172800000 24 []) := by
  intro h
  have := congrArg WexOut.toISO h
  exact absurd this (by decide)

/-- C6: the probe returns the processed result set of the first candidate
with at least one non-empty row — earlier failures or empty candidates
are skipped, and exhaustion yields the empty map (no error: the function
is total); on the spec's scenario `["x", "y"]` it returns the three rows
of "y". -/
theorem fetchAuthorsPerDay_cons (dim : String) (rest : List String)
    (run : String → Except String (List GARow)) :
    fetchAuthorsPerDay (dim :: rest) run =
      (match run dim with
       | .error _ => fetchAuthorsPerDay rest run
       | .ok rows =>
         if 0 < (rows.filter rowNonEmpty).length
         then buildAuthorsMap (rows.filter rowNonEmpty)
         else fetchAuthorsPerDay rest run) := rfl

theorem specFirstUsable_cons (dim : String) (rest : List String)
    (run : String → Except String (List GARow)) :
    specFirstUsable (dim :: rest) run =
      (match run dim with
       | .error _ => specFirstUsable rest run
       | .ok rows =>
         if 0 < (rows.filter rowNonEmpty).length then some (rows.filter rowNonEmpty)
         else specFirstUsable rest run) := rfl

theorem c6_dimension_fallback_probe :
    (∀ cands run, fetchAuthorsPerDay cands run =
      (match specFirstUsable cands run with
       | some rows => buildAuthorsMap rows
       | none => []))
    ∧ fetchAuthorsPerDay ["x", "y"] probeScenarioRun
        = [("20250101",
            [⟨"C", "1", "1"⟩, ⟨"B", "2", "2"⟩, ⟨"A", "3", "3"⟩])] := by
  constructor
  · intro cands run
    induction cands with
    | nil => rfl
    | cons dim rest ih =>
      rw [fetchAuthorsPerDay_cons, specFirstUsable_cons]
      cases hr : run dim with
      | error e => exact ih
      | ok rows =>
        dsimp only
        by_cases hlen : 0 < (rows.filter rowNonEmpty).length
        · rw [if_pos hlen, if_pos hlen]
        · rw [if_neg hlen, if_neg hlen]
          exact ih
  · rfl

/-- C5 evaluation: on three one-day rows with users 5 ("(not set)"), 2
and 9, the attached authors list is ascending by users and retains the
"(not set)" sentinel — `sort(desc).reverse()` plus `slice(0, 10)` keeps
the bottom entries in ascending order, contradicting both the ranking
documented in the code comment ("take top 10 per date by users") and the
spec's exclusion of the sentinel. -/
theorem c5_authors_not_ranked_desc :
    buildAuthorsMap
        [gaRow "20250101" "(not set)" "5" "5", gaRow "20250101" "Alice" "2" "2",
         gaRow "20250101" "Bob" "9" "9"]
      = [("20250101",
          [⟨"Alice", "2", "2"⟩, ⟨"(not set)", "5", "5"⟩, ⟨"Bob", "9", "9"⟩])]
    ∧ fetchAuthorsPerDay ["dim"]
        (fun _ => .ok [gaRow "20250101" "(not set)" "5" "5",
          gaRow "20250101" "Alice" "2" "2", gaRow "20250101" "Bob" "9" "9"])
      = [("20250101",
          [⟨"Alice", "2", "2"⟩, ⟨"(not set)", "5", "5"⟩, ⟨"Bob", "9", "9"⟩])] :=
  ⟨rfl, rfl⟩

theorem mem_keysOf_setKey_iff {β : Type} (m : List (String × β)) (k k' : String) (v : β) :
    k' ∈ keysOf (setKey m k v) ↔ k' ∈ keysOf m ∨ k' = k := by
  by_cases hk : k ∈ keysOf m
  · rw [keysOf_setKey_mem m k v hk]
    constructor
    · exact Or.inl
    · intro h
      rcases h with h | h
      · exact h
      · rw [h]; exact hk
  · rw [keysOf_setKey_not_mem m k v hk, List.mem_append, List.mem_singleton]

theorem mergeLoop_lookup_not_mem (days : List Civil) (m : List (String × KpiRow))
    (f : String → Option (List RefEntry)) (g : String → Option (List AuthorEntry))
    {k : String} (hk : k ∉ days.map ymdCompact) :
    lookupKey (mergeLoop days m f g) k = lookupKey m k := by
  induction days generalizing m with
  | nil => rfl
  | cons d rest ih =>
    simp only [List.map_cons, List.mem_cons] at hk
    push_neg at hk
    show lookupKey (mergeLoop rest (setKey m (ymdCompact d) _) f g) k = _
    rw [ih _ hk.2, lookupKey_setKey_ne _ _ hk.1]

theorem mergeLoop_lookup_mem (days : List Civil) (m : List (String × KpiRow))
    (f : String → Option (List RefEntry)) (g : String → Option (List AuthorEntry))
    (hnd : (days.map ymdCompact).Nodup) {d : Civil} (hd : d ∈ days) :
    lookupKey (mergeLoop days m f g) (ymdCompact d)
      = some (attachBreakdowns (ymdCompact d) f g (lookupKey m (ymdCompact d))) := by
  induction days generalizing m with
  | nil => cases hd
  | cons d0 rest ih =>
    simp only [List.map_cons, List.nodup_cons] at hnd
    rcases List.mem_cons.mp hd with rfl | hd2
    · show lookupKey (mergeLoop rest (setKey m (ymdCompact d) _) f g) (ymdCompact d) = _
      rw [mergeLoop_lookup_not_mem rest _ f g hnd.1, lookupKey_setKey_self]
    · have hne : ymdCompact d ≠ ymdCompact d0 := by
        intro hEq
        exact hnd.1 (hEq ▸ List.mem_map_of_mem ymdCompact hd2)
      show lookupKey (mergeLoop rest (setKey m (ymdCompact d0) _) f g) (ymdCompact d) = _
      rw [ih _ hnd.2 hd2, lookupKey_setKey_ne _ _ hne]

theorem mergeLoop_keys (days : List Civil) (m : List (String × KpiRow))
    (f : String → Option (List RefEntry)) (g : String → Option (List AuthorEntry))
    (k : String) :
    k ∈ keysOf (mergeLoop days m f g) ↔ k ∈ keysOf m ∨ k ∈ days.map ymdCompact := by
  induction days generalizing m with
  | nil => simp [mergeLoop]
  | cons d rest ih =>
    show k ∈ keysOf (mergeLoop rest (setKey m (ymdCompact d) _) f g) ↔ _
    rw [ih, mem_keysOf_setKey_iff]
    simp only [List.map_cons, List.mem_cons]
    tauto

theorem mergeLoop_nodup_keys (days : List Civil) (m : List (String × KpiRow))
    (f : String → Option (List RefEntry)) (g : String → Option (List AuthorEntry))
    (h : (keysOf m).Nodup) : (keysOf (mergeLoop days m f g)).Nodup := by
  induction days generalizing m with
  | nil => exact h
  | cons d rest ih => exact ih _ (nodup_keysOf_setKey _ _ _ h)

theorem dateInv_attach (m : List (String × KpiRow)) (hm : DateInv m) (key : String)
    (f : String → Option (List RefEntry)) (g : String → Option (List AuthorEntry)) :
    (attachBreakdowns key f g (lookupKey m key)).date = key := by
  unfold attachBreakdowns
  cases hl : lookupKey m key with
  | none => rfl
  | some r =>
    show r.date = key
    exact hm (key, r) (lookupKey_mem hl)

theorem mergeLoop_dateInv (days : List Civil) (m : List (String × KpiRow))
    (f : String → Option (List RefEntry)) (g : String → Option (List AuthorEntry))
    (hm : DateInv m) : DateInv (mergeLoop days m f g) := by
  induction days generalizing m with
  | nil => exact hm
  | cons d rest ih =>
    apply ih
    intro p hp
    rcases mem_setKey hp with hmem | hEq
    · exact hm p hmem
    · rw [hEq]
      exact dateInv_attach m hm (ymdCompact d) f g

theorem buildKpiMap_inv (rows : List GARow) :
    DateInv (buildKpiMap rows) ∧ (keysOf (buildKpiMap rows)).Nodup
    ∧ ∀ k ∈ keysOf (buildKpiMap rows), ∃ r ∈ rows, dayKeyOf r = k := by
  have main : ∀ (rs : List GARow) (m : List (String × KpiRow)), DateInv m → (keysOf m).Nodup →
      DateInv (rs.foldl (fun m r => setKey m (dayKeyOf r) (kpiOfRow r)) m)
      ∧ (keysOf (rs.foldl (fun m r => setKey m (dayKeyOf r) (kpiOfRow r)) m)).Nodup
      ∧ ∀ k ∈ keysOf (rs.foldl (fun m r => setKey m (dayKeyOf r) (kpiOfRow r)) m),
          k ∈ keysOf m ∨ ∃ r ∈ rs, dayKeyOf r = k := by
    intro rs
    induction rs with
    | nil => intro m h1 h2; exact ⟨h1, h2, fun k hk => Or.inl hk⟩
    | cons r rest ih =>
      intro m h1 h2
      have h1' : DateInv (setKey m (dayKeyOf r) (kpiOfRow r)) := by
        intro p hp
        rcases mem_setKey hp with hmem | hEq
        · exact h1 p hmem
        · rw [hEq]; rfl
      obtain ⟨g1, g2, g3⟩ := ih (setKey m (dayKeyOf r) (kpiOfRow r)) h1'
        (nodup_keysOf_setKey _ _ _ h2)
      refine ⟨g1, g2, ?_⟩
      intro k hk
      rcases g3 k hk with hk2 | ⟨r2, hr2, hk2⟩
      · rcases (mem_keysOf_setKey_iff m _ k _).mp hk2 with hk3 | hk3
        · exact Or.inl hk3
        · exact Or.inr ⟨r, List.mem_cons_self _ _, hk3.symm⟩
      · exact Or.inr ⟨r2, List.mem_cons_of_mem _ hr2, hk2⟩
  have base := main rows [] (fun p hp => absurd hp (List.not_mem_nil p)) List.nodup_nil
  refine ⟨base.1, base.2.1, ?_⟩
  intro k hk
  rcases base.2.2 k hk with hk2 | h
  · cases hk2
  · exact h

/-- C2: over the requested range the merged output has exactly one row
per day — its dates are a permutation of the range's compact dates, hence
no duplicates and no gaps — every row carries present (never null, never
omitted) referrer and author lists, each day the upstream report omitted
appears as the zero-valued row with its breakdowns attached, and the
zero-valued row is explicit in the last clause. -/
theorem c2_one_row_per_day (today : Civil) (hv : today.Valid) (n : Nat)
    (kpiResp : List GARow)
    (refMap : String → Option (List RefEntry))
    (authMap : String → Option (List AuthorEntry))
    (hsub : ∀ r ∈ kpiResp, dayKeyOf r ∈ (resolvedDays today n).map ymdCompact) :
    List.Perm ((ga4Rows today n kpiResp refMap authMap).map KpiRow.date)
      ((resolvedDays today n).map ymdCompact)
    ∧ (∀ row ∈ ga4Rows today n kpiResp refMap authMap,
        row.referrers = some ((refMap row.date).getD [])
        ∧ row.authors = some ((authMap row.date).getD []))
    ∧ (∀ d ∈ resolvedDays today n,
        lookupKey (buildKpiMap kpiResp) (ymdCompact d) = none →
        attachBreakdowns (ymdCompact d) refMap authMap none
          ∈ ga4Rows today n kpiResp refMap authMap)
    ∧ (∀ key, attachBreakdowns key refMap authMap none
        = ⟨key, "0", "0", "0", "0", "0", "0", some ((refMap key).getD []),
           some ((authMap key).getD [])⟩) := by
  have hstart : (rangeStart today n).Valid := valid_subDays hv n
  have hvalid : ∀ d ∈ resolvedDays today n, d.Valid := dayRange_valid hstart n
  have hddnd : (resolvedDays today n).Nodup := dayRange_nodup hstart n
  have hdknd : ((resolvedDays today n).map ymdCompact).Nodup :=
    List.Nodup.map_on
      (fun x hx y hy hEq => ymdCompact_injective (hvalid x hx) (hvalid y hy) hEq) hddnd
  obtain ⟨hm0date, hm0nd, hm0keys⟩ := buildKpiMap_inv kpiResp
  have hm0sub : ∀ k ∈ keysOf (buildKpiMap kpiResp),
      k ∈ (resolvedDays today n).map ymdCompact := by
    intro k hk
    rcases hm0keys k hk with ⟨r, hr, hkr⟩
    rw [← hkr]
    exact hsub r hr
  have hMnd := mergeLoop_nodup_keys (resolvedDays today n) (buildKpiMap kpiResp)
    refMap authMap hm0nd
  have hMdate := mergeLoop_dateInv (resolvedDays today n) (buildKpiMap kpiResp)
    refMap authMap hm0date
  have hkeys_iff : ∀ k,
      k ∈ keysOf (mergeLoop (resolvedDays today n) (buildKpiMap kpiResp) refMap authMap)
      ↔ k ∈ (resolvedDays today n).map ymdCompact := by
    intro k
    rw [mergeLoop_keys]
    constructor
    · intro h
      rcases h with h | h
      · exact hm0sub k h
      · exact h
    · exact Or.inr
  have hrowsdef : ga4Rows today n kpiResp refMap authMap
      = List.insertionSort kpiLE
          ((mergeLoop (resolvedDays today n) (buildKpiMap kpiResp) refMap authMap).map
            Prod.snd) := rfl
  have hperm0 : List.Perm (ga4Rows today n kpiResp refMap authMap)
      ((mergeLoop (resolvedDays today n) (buildKpiMap kpiResp) refMap authMap).map
        Prod.snd) := by
    rw [hrowsdef]
    exact List.perm_insertionSort kpiLE _
  have hdates_eq :
      ((mergeLoop (resolvedDays today n) (buildKpiMap kpiResp) refMap authMap).map
        Prod.snd).map KpiRow.date
      = keysOf (mergeLoop (resolvedDays today n) (buildKpiMap kpiResp) refMap authMap) := by
    rw [List.map_map]
    apply List.map_congr_left
    intro p hp
    exact hMdate p hp
  have hkeysperm :
      List.Perm
        (keysOf (mergeLoop (resolvedDays today n) (buildKpiMap kpiResp) refMap authMap))
        ((resolvedDays today n).map ymdCompact) :=
    (List.perm_ext_iff_of_nodup hMnd hdknd).mpr hkeys_iff
  refine ⟨((hperm0.map KpiRow.date).trans (hdates_eq ▸ List.Perm.refl _)).trans hkeysperm,
    ?_, ?_, fun key => rfl⟩
  · intro row hrow
    have hrow2 : row ∈ (mergeLoop (resolvedDays today n) (buildKpiMap kpiResp)
        refMap authMap).map Prod.snd := hperm0.mem_iff.mp hrow
    obtain ⟨k, hk⟩ := mem_values_exists_key hrow2
    have hdate : row.date = k := hMdate (k, row) hk
    have hlook : lookupKey (mergeLoop (resolvedDays today n) (buildKpiMap kpiResp)
        refMap authMap) k = some row := lookupKey_of_mem_nodup hk hMnd
    have hkmem : k ∈ keysOf (mergeLoop (resolvedDays today n) (buildKpiMap kpiResp)
        refMap authMap) := by
      rw [mem_keysOf_iff_lookupKey, hlook]
      exact Option.some_ne_none row
    rcases List.mem_map.mp ((hkeys_iff k).mp hkmem) with ⟨d, hd, hkdEq⟩
    have hlook2 := mergeLoop_lookup_mem (resolvedDays today n) (buildKpiMap kpiResp)
      refMap authMap hdknd hd
    rw [hkdEq] at hlook2
    have hroweq : row = attachBreakdowns k refMap authMap
        (lookupKey (buildKpiMap kpiResp) k) :=
      Option.some.inj (hlook.symm.trans hlook2)
    rw [hdate, hroweq]
    exact ⟨rfl, rfl⟩
  · intro d hd hnone
    have hlook2 := mergeLoop_lookup_mem (resolvedDays today n) (buildKpiMap kpiResp)
      refMap authMap hdknd hd
    rw [hnone] at hlook2
    have hmem := lookupKey_mem hlook2
    have hmem2 : attachBreakdowns (ymdCompact d) refMap authMap none
        ∈ (mergeLoop (resolvedDays today n) (buildKpiMap kpiResp) refMap authMap).map
          Prod.snd := List.mem_map_of_mem Prod.snd hmem
    exact hperm0.mem_iff.mpr hmem2

/-- C2 witness: a two-day range ending 2024-02-29 with one reported day;
the output dates are a permutation of the range's compact dates. -/
theorem c2_one_row_per_day_witness :
    List.Perm ((ga4Rows ⟨2024, 3, 1⟩ 2 [kpiWitnessRow] noRefs noAuths).map KpiRow.date)
      ((resolvedDays ⟨2024, 3, 1⟩ 2).map ymdCompact) :=
  (c2_one_row_per_day ⟨2024, 3, 1⟩ (by decide) 2 [kpiWitnessRow] noRefs noAuths
    (by decide)).1

theorem colName_ne_empty (n : Nat) : colName n ≠ "" := by
  intro h
  have := congrArg String.data h
  simp [colName] at this

theorem mem_keysOf_foldl_setKey {β : Type} (ps : List (String × β)) :
    ∀ (m : List (String × β)) k,
      k ∈ keysOf (ps.foldl (fun m p => setKey m p.1 p.2) m)
      ↔ k ∈ keysOf m ∨ k ∈ ps.map Prod.fst := by
  induction ps with
  | nil => intro m k; simp
  | cons p rest ih =>
    intro m k
    show k ∈ keysOf (rest.foldl _ (setKey m p.1 p.2)) ↔ _
    rw [ih, mem_keysOf_setKey_iff]
    simp only [List.map_cons, List.mem_cons]
    tauto

theorem mem_keysOf_fromEntries {β : Type} (ps : List (String × β)) (k : String) :
    k ∈ keysOf (fromEntriesJs ps) ↔ k ∈ ps.map Prod.fst := by
  rw [fromEntriesJs, mem_keysOf_foldl_setKey]
  constructor
  · intro h
    rcases h with h | h
    · cases h
    · exact h
  · exact Or.inr

theorem placeholderPairs_keys_ne (headers r : List String) :
    ∀ i k, k ∈ (placeholderPairs headers r i).map Prod.fst → k ≠ "" := by
  induction headers with
  | nil => intro i k h; cases h
  | cons h0 rest ih =>
    intro i k hk
    simp only [placeholderPairs, List.map_cons, List.mem_cons] at hk
    rcases hk with hk | hk
    · by_cases hh : jsTrim h0 = ""
      · rw [if_pos hh] at hk
        rw [hk]
        exact colName_ne_empty _
      · rw [if_neg hh] at hk
        rw [hk]
        exact hh
    · exact ih (i + 1) k hk

theorem placeholderPairs_keys_mem (headers r : List String) :
    ∀ i j h', headers.get? j = some h' →
      (if jsTrim h' = "" then colName (i + j + 1) else jsTrim h')
        ∈ (placeholderPairs headers r i).map Prod.fst := by
  induction headers with
  | nil => intro i j h' h; cases h
  | cons h0 rest ih =>
    intro i j h' hget
    simp only [placeholderPairs, List.map_cons, List.mem_cons]
    cases j with
    | zero =>
      obtain rfl : h0 = h' := Option.some.inj hget
      exact Or.inl rfl
    | succ j =>
      have := ih (i + 1) j h' hget
      rw [show i + 1 + j + 1 = i + (j + 1) + 1 by omega] at this
      exact Or.inr this

/-- C9, amended: the sheet mapper of src/unnamed/part_003 lines 302-308
produces only non-empty keys — an empty (trimmed) header at position `j`
contributes the placeholder key `col(j+1)` — while the mapper of
scripts/fetch_sheets.js lines 28-30 keeps the raw header as the key, so a
missing header name yields an entry keyed `""`. -/
theorem c9_sheet_row_keys (header r : List String) :
    (∀ k ∈ keysOf (sheetRowPlaceholder header r), k ≠ "")
    ∧ (∀ j h', header.get? j = some h' →
        (if jsTrim h' = "" then colName (j + 1) else jsTrim h')
          ∈ keysOf (sheetRowPlaceholder header r)) := by
  constructor
  · intro k hk
    rw [sheetRowPlaceholder, mem_keysOf_fromEntries] at hk
    exact placeholderPairs_keys_ne header r 0 k hk
  · intro j h' hget
    rw [sheetRowPlaceholder, mem_keysOf_fromEntries]
    have := placeholderPairs_keys_mem header r 0 j h' hget
    rw [show 0 + j + 1 = j + 1 by omega] at this
    exact this

/-- C9, counterexample: with header `["", "b"]` the plain mapper of
scripts/fetch_sheets.js emits an entry whose key is the empty string —
no positional placeholder is substituted. -/
theorem c9_empty_key_counterexample :
    sheetRowSimple ["", "b"] ["x", "y"] = [("", some "x"), ("b", some "y")]
    ∧ "" ∈ keysOf (sheetRowSimple ["", "b"] ["x", "y"]) := by
  constructor
  · rfl
  · decide

/-- C9 witness: the placeholder clause at header `["", "b"]`, index 0. -/
theorem c9_sheet_row_keys_witness :
    (if jsTrim "" = "" then colName (0 + 1) else jsTrim "")
      ∈ keysOf (sheetRowPlaceholder ["", "b"] ["x", "y"]) :=
  (c9_sheet_row_keys ["", "b"] ["x", "y"]).2 0 "" rfl

theorem guard_isFinite (nm : JsNum) : (if nm.isFinite then nm else .finite 0).isFinite = true := by
  cases nm <;> rfl

/-- C10: the numeric coercion helpers always return a finite value — a
missing row, a missing value, and a string that coerces to NaN or an
infinity all become 0 — so no NaN, Infinity, or undefined reaches a
numeric metric field computed through them. -/
theorem c10_numeric_coercion_total (toNumber : String → JsNum) (row : Option GARow)
    (idx : Nat) (x : Option String) (s : String) :
    (num toNumber row idx).isFinite = true
    ∧ (toInt toNumber x).isFinite = true
    ∧ (asNumber toNumber x).isFinite = true
    ∧ (toNumber "0" = .finite 0 → num toNumber none idx = .finite 0)
    ∧ toInt toNumber none = .finite 0
    ∧ asNumber toNumber none = .finite 0
    ∧ (toNumber s = .nan →
        toInt toNumber (some s) = .finite 0 ∧ asNumber toNumber (some s) = .finite 0)
    ∧ (toNumber s = .posInf → toInt toNumber (some s) = .finite 0) := by
  refine ⟨?_, ?_, ?_, ?_, rfl, rfl, ?_, ?_⟩
  · exact guard_isFinite _
  · cases x with
    | none => rfl
    | some s0 => exact guard_isFinite _
  · cases x with
    | none => rfl
    | some s0 => exact guard_isFinite _
  · intro h0
    show (if (toNumber "0").isFinite then toNumber "0" else .finite 0) = .finite 0
    rw [h0]
    rfl
  · intro hnan
    constructor
    · show (if (toNumber s).isFinite then toNumber s else .finite 0) = .finite 0
      rw [hnan]
      rfl
    · show (if (toNumber s).isFinite then toNumber s else .finite 0) = .finite 0
      rw [hnan]
      rfl
  · intro hinf
    show (if (toNumber s).isFinite then toNumber s else .finite 0) = .finite 0
    rw [hinf]
    rfl

/-- C10 witness: the helpers under the concrete coercion at a missing row
and at a non-numeric string. -/
theorem c10_numeric_coercion_total_witness :
    num toNumberDec none 0 = .finite 0
    ∧ (toInt toNumberDec (some "abc")).isFinite = true
    ∧ asNumber toNumberDec (some "abc") = .finite 0 :=
  ⟨(c10_numeric_coercion_total toNumberDec none 0 none "abc").2.2.2.1 (by decide),
   (c10_numeric_coercion_total toNumberDec none 0 (some "abc") "abc").2.1,
   ((c10_numeric_coercion_total toNumberDec none 0 (some "abc") "abc").2.2.2.2.2.2.1
      (by decide)).2⟩

end Dashboard
